import Mathlib

/-!
# YOLO detection post-processing (`inference/MNN/yoloDetection.cpp`)

A shallow embedding of the post-processing routines of `yoloDetection.cpp`
and the properties proved about them.

Modelling conventions.

* C `float` values are elements of an arbitrary linearly ordered field `α`
  (instantiate `α := ℚ` to compute, `α := ℝ` to read the arithmetic over the
  reals).  Rounding, infinities and NaN are outside the model; in particular a
  division by zero follows the field convention `a / 0 = 0`.
* C `int` values are `Int`; `size_t` values are `Nat` taken modulo `2 ^ 64`.
* `std::vector` is `List`, in index order (`back` is the last element).
* `exit(-1)` is the result `none`.
* Library functions and macros that the file only uses are parameters: `exp` (of the
  C library) is `exp : α → α`, assumed positive where a property needs it, and
  `Real.exp` in the concrete runs of the decoder; `MNN_ASSERT` is
  `mnn_assert : Bool → Bool`, telling whether execution continues; `atof` and `malloc`
  likewise.
-/

namespace YoloDetection

/-! ## Data model -/

/-- The record `t_prediction` of a bounding-box prediction. -/
structure t_prediction (α : Type) where
  x : α
  y : α
  width : α
  height : α
  confidence : α
  class_index : Int
deriving DecidableEq

/-! ## Non-max suppression -/

section NMS

variable {α : Type} [LinearOrderedField α]

/-- The function `get_iou`: intersection over union of two prediction boxes, with
the `+ 1` term of the source in the intersection extents. -/
def get_iou (pred1 pred2 : t_prediction α) : α :=
  -- area for box 1
  let x1min := pred1.x
  let x1max := pred1.x + pred1.width
  let y1min := pred1.y
  let y1max := pred1.y + pred1.height
  let area1 := pred1.width * pred1.height
  -- area for box 2
  let x2min := pred2.x
  let x2max := pred2.x + pred2.width
  let y2min := pred2.y
  let y2max := pred2.y + pred2.height
  let area2 := pred2.width * pred2.height
  -- area for the intersection box
  let x_inter_min := max x1min x2min
  let x_inter_max := min x1max x2max
  let y_inter_min := max y1min y2min
  let y_inter_max := min y1max y2max
  let width_inter := max 0 (x_inter_max - x_inter_min + 1)
  let height_inter := max 0 (y_inter_max - y_inter_min + 1)
  let area_inter := width_inter * height_inter
  area_inter / (area1 + area2 - area_inter)

/-- The comparator `compare_conf` (ascending order of confidence). -/
def compare_conf (lpred rpred : t_prediction α) : Bool :=
  if lpred.confidence < rpred.confidence then true else false

/-- The contract of `std::sort(first, last, compare_conf)`: the result is a
rearrangement of the argument in which no element compares below an earlier one.
The order among elements of equal confidence is left to the implementation, so
the sort is a parameter of `nms_boxes`. -/
structure StdSort (α : Type) [LinearOrderedField α] where
  sort : List (t_prediction α) → List (t_prediction α)
  perm : ∀ l, (sort l).Perm l
  sorted : ∀ l, (sort l).Pairwise (fun a b => compare_conf b a = false)

/-- The `while (class_pred_list.size() > 0)` loop of `nms_boxes`: the last element
is picked and popped, every remaining element whose IoU with it exceeds the
threshold is erased.  The result is `class_pick_list`. -/
def nms_pick (iou_threshold : α) : List (t_prediction α) → List (t_prediction α)
  | [] => []
  | p :: ps =>
    let current_pred := (p :: ps).getLast (List.cons_ne_nil p ps)
    current_pred ::
      nms_pick iou_threshold
        ((p :: ps).dropLast.filter fun q => !decide (get_iou current_pred q > iou_threshold))
termination_by l => l.length
decreasing_by
  simp_wf
  exact Nat.lt_succ_of_le ((List.length_filter_le _ _).trans (by simp))

/-- The body of the loop over classes in `nms_boxes`, for class `i`: the
predictions of class `i` are collected, sorted and reduced, and the picks are
appended to `prediction_nms_list`. -/
def nms_class (S : StdSort α) (prediction_list : List (t_prediction α)) (iou_threshold : α)
    (prediction_nms_list : List (t_prediction α)) (i : Int) : List (t_prediction α) :=
  let class_pred_list := prediction_list.filter fun p => decide (p.class_index = i)
  if class_pred_list.isEmpty then prediction_nms_list
  else prediction_nms_list ++ nms_pick iou_threshold (S.sort class_pred_list)

/-- The function `nms_boxes`; the result is the final content of the output
parameter `prediction_nms_list`. -/
def nms_boxes (S : StdSort α) (prediction_list prediction_nms_list : List (t_prediction α))
    (num_classes : Int) (iou_threshold : α) : List (t_prediction α) :=
  ((List.range num_classes.toNat).map fun (k : Nat) => (k : Int)).foldl
    (nms_class S prediction_list iou_threshold) prediction_nms_list

/-- A stable implementation of the sort contract (insertion sort). -/
def insertion_sort : StdSort α where
  sort l := l.insertionSort fun a b => a.confidence ≤ b.confidence
  perm l := List.perm_insertionSort _ l
  sorted l := by
    have : IsTotal (t_prediction α) (fun a b => a.confidence ≤ b.confidence) :=
      ⟨fun a b => le_total a.confidence b.confidence⟩
    have : IsTrans (t_prediction α) (fun a b => a.confidence ≤ b.confidence) :=
      ⟨fun _ _ _ hab hbc => le_trans hab hbc⟩
    have h := List.sorted_insertionSort (fun a b : t_prediction α => a.confidence ≤ b.confidence) l
    refine List.Pairwise.imp ?_ h
    intro a b hab
    simp [compare_conf, not_lt.mpr hab]

/-- The list `class_pick_list` that `nms_boxes` builds for class `i`. -/
def class_pick (S : StdSort α) (L : List (t_prediction α)) (thr : α) (i : Int) :
    List (t_prediction α) :=
  nms_pick thr (S.sort (L.filter fun p => decide (p.class_index = i)))

/-- The indices visited by a loop `for (int i = 0; i < n; i++)`, such as the loop over
the classes `for (int i = 0; i < num_classes; i++)`. -/
def class_range (n : Int) : List Int :=
  (List.range n.toNat).map fun (k : Nat) => (k : Int)

end NMS

/-! ## Anchor selection -/

section Anchors

variable {α : Type}

/-- The function `get_anchorset`: the anchors of the feature-map layer of width
`feature_width`.  The result `none` stands for `exit(-1)`.  The quotient
`input_width / feature_width` is C integer division (truncation); a zero
`feature_width` is undefined behaviour in C and outside the model. -/
def get_anchorset (anchors : List (α × α)) (feature_width input_width : Int) :
    Option (List (α × α)) :=
  let stride := Int.tdiv input_width feature_width
  -- YOLOv3 model has 9 anchors and 3 feature layers
  if h9 : anchors.length = 9 then
    if stride = 32 then some [anchors[6], anchors[7], anchors[8]]
    else if stride = 16 then some [anchors[3], anchors[4], anchors[5]]
    else if stride = 8 then some [anchors[0], anchors[1], anchors[2]]
    else none
  -- Tiny YOLOv3 model has 6 anchors and 2 feature layers
  else if h6 : anchors.length = 6 then
    if stride = 32 then some [anchors[3], anchors[4], anchors[5]]
    else if stride = 16 then some [anchors[0], anchors[1], anchors[2]]
    else none
  -- YOLOv2 model has 5 anchors and 1 feature layer
  else if anchors.length = 5 then some anchors
  else none

end Anchors

/-! ## Anchor file parsing -/

section Parse

/-- The constant `std::string::npos`, the largest `size_t`. -/
def npos : Nat := 2 ^ 64 - 1

/-- Subtraction of two `size_t` values (modulo `2 ^ 64`). -/
def size_sub (a b : Nat) : Nat := (a + 2 ^ 64 - b) % 2 ^ 64

/-- Increment of a `size_t` value (modulo `2 ^ 64`): `npos + 1` is `0`. -/
def size_succ (a : Nat) : Nat := (a + 1) % 2 ^ 64

/-- Offset of the first comma of a character sequence, if there is one. -/
def comma_offset : List Char → Option Nat
  | [] => none
  | c :: cs => if c = ',' then some 0 else (comma_offset cs).map fun k => k + 1

/-- The call `line.find(",", pos)`: the position of the first comma at or after
`pos`, or `npos`. -/
def find_comma (line : List Char) (pos : Nat) : Nat :=
  match comma_offset (line.drop pos) with
  | some k => pos + k
  | none => npos

/-- The call `line.substr(pos, len)`: at most `len` characters from `pos` on; `none`
when `pos` is past the end (`std::out_of_range` is thrown). -/
def substr (line : List Char) (pos len : Nat) : Option (List Char) :=
  if pos > line.length then none else some ((line.drop pos).take len)

/-- Ways in which a run of `parse_anchors` does not return. -/
inductive ParseError where
  | out_of_range
  | out_of_fuel
deriving DecidableEq

variable {β : Type}

/-- The `while (next != std::string::npos)` loop of `parse_anchors`, with a bound
`fuel` on the number of iterations; `atof` is the conversion of a token to a number. -/
def parse_anchors_loop (atof : List Char → β) (line : List Char) :
    Nat → Nat → Nat → List (β × β) → Except ParseError (List (β × β))
  | 0, _, next, anchors =>
    if next = npos then .ok anchors else .error .out_of_fuel
  | fuel + 1, curr, next, anchors =>
    if next = npos then .ok anchors
    else
      -- get 1st number
      let next1 := find_comma line curr
      match substr line curr (size_sub next1 curr) with
      | none => .error .out_of_range
      | some num1 =>
        -- get 2nd number
        let curr1 := size_succ next1
        let next2 := find_comma line curr1
        match substr line curr1 (size_sub next2 curr1) with
        | none => .error .out_of_range
        | some num2 =>
          -- form up anchor, get start of next anchor
          parse_anchors_loop atof line fuel (size_succ next2) next2
            (anchors ++ [(atof num1, atof num2)])

/-- The function `parse_anchors`; the result is the final content of `anchors`.  Every
iteration but the last passes a comma, so `line.length + 1` iterations suffice. -/
def parse_anchors (atof : List Char → β) (line : List Char) (anchors : List (β × β)) :
    Except ParseError (List (β × β)) :=
  parse_anchors_loop atof line (line.length + 1) 0 0 anchors

/-- The line made of the given pairs of tokens, all tokens separated by commas. -/
def pair_line : List (List Char × List Char) → List Char
  | [] => []
  | [p] => p.1 ++ ',' :: p.2
  | p :: q :: ps => p.1 ++ ',' :: (p.2 ++ ',' :: pair_line (q :: ps))

end Parse

/-! ## Letterbox geometry -/

section Letterbox

variable {α : Type} [LinearOrderedField α]

/-- The function `adjust_boxes`; the result is the final content of
`prediction_nms_list`, and `none` when the assertion aborts the run.  The macro
`MNN_ASSERT` is declared in the MNN headers: `mnn_assert c` tells whether execution
continues past `MNN_ASSERT(c)`.  The operand of `floor` is a quotient of C integers,
so `floor` returns it unchanged. -/
def adjust_boxes (mnn_assert : Bool → Bool) (prediction_nms_list : List (t_prediction α))
    (image_width image_height input_width input_height : Int) :
    Option (List (t_prediction α)) :=
  if mnn_assert (decide (input_width = input_height)) = false then none
  else
    let square_dim : Int := max image_width image_height
    let scale : α := (square_dim : α) / (input_width : α)
    let x_offset : Int :=
      if image_width > image_height then 0 else Int.tdiv (image_height - image_width) 2
    let y_offset : Int :=
      if image_width > image_height then Int.tdiv (image_width - image_height) 2 else 0
    some (prediction_nms_list.map fun p =>
      { p with
        x := p.x * scale - (x_offset : α)
        y := p.y * scale - (y_offset : α)
        width := p.width * scale
        height := p.height * scale })

/-- The reference definition of the rescaling, in the words of the specification:
`square_dim = max(image_width, image_height)`, `scale = square_dim / input_width`, the
offset of the shorter axis is `floor(difference / 2)` and that of the longer axis is
`0`; coordinates are scaled and shifted, sizes are scaled, confidence and class are
kept. -/
def adjust_boxes_reference [FloorRing α] (detections : List (t_prediction α))
    (image_width image_height input_width : Int) : List (t_prediction α) :=
  let square_dim : Int := max image_width image_height
  let scale : α := (square_dim : α) / (input_width : α)
  let x_offset : Int :=
    if image_width > image_height then 0
    else ⌊(((image_height - image_width : Int) : α)) / 2⌋
  let y_offset : Int :=
    if image_width > image_height then ⌊(((image_width - image_height : Int) : α)) / 2⌋
    else 0
  detections.map fun d =>
    ⟨d.x * scale - (x_offset : α), d.y * scale - (y_offset : α), d.width * scale,
      d.height * scale, d.confidence, d.class_index⟩

/-- The offsets `(x_offset, y_offset)` computed by `letterbox_image` (and by
`adjust_boxes`) for an image of the given width and height: the shorter axis is
shifted by half the difference, rounded down. -/
def letterbox_offsets (image_width image_height : Nat) : Nat × Nat :=
  if image_width > image_height then (0, (image_width - image_height) / 2)
  else ((image_height - image_width) / 2, 0)

/-- The index written in `squareImage` for the pixel component `(h, w, c)`. -/
def square_index (square_dim image_channel x_offset y_offset h w c : Nat) : Nat :=
  (h + y_offset) * square_dim * image_channel + (w + x_offset) * image_channel + c

/-- The index read in `inputImage` for the pixel component `(h, w, c)`. -/
def input_index (image_width image_channel h w c : Nat) : Nat :=
  h * image_width * image_channel + w * image_channel + c

/-- What `letterbox_image` returns: the pointer `inputImage` it was given, or a
freshly allocated square buffer. -/
inductive LetterboxImage (β : Type) where
  | original : LetterboxImage β
  | padded (squareImage : List β) : LetterboxImage β

/-- The function `letterbox_image`.  The image dimensions are the positive `int`
values returned by the image loader, taken as natural numbers, and the `int`
arithmetic is assumed not to overflow.  `malloc n` is the content of a fresh buffer
of `n` bytes; a read past the end of `inputImage` is undefined in C and yields
`default` here. -/
def letterbox_image {β : Type} [Inhabited β] (malloc : Nat → List β) (inputImage : List β)
    (image_width image_height image_channel : Nat) : LetterboxImage β :=
  -- if input image is square, just return original
  if image_width = image_height then .original
  else
    let square_dim := max image_width image_height
    let squareImage := malloc (square_dim * square_dim * image_channel)
    let x_offset := (letterbox_offsets image_width image_height).1
    let y_offset := (letterbox_offsets image_width image_height).2
    -- paste input image into square image
    .padded <|
      (List.range image_height).foldl (fun img h =>
        (List.range image_width).foldl (fun img w =>
          (List.range image_channel).foldl (fun img c =>
            img.set (square_index square_dim image_channel x_offset y_offset h w c)
              (inputImage.getD (input_index image_width image_channel h w c) default))
            img) img) squareImage

end Letterbox

/-! ## Feature map decoder -/

section Decoder

variable {α : Type} [LinearOrderedField α]

/-- The function `sigmoid`; `exp` is the exponential of the C library. -/
def sigmoid (exp : α → α) (x : α) : α :=
  1 / (1 + exp (-x))

/-- The function `softmax`; the result is the final content of `output`. -/
def softmax (exp : α → α) (logits : List α) : List α :=
  let output := logits.map exp
  let sum := output.foldl (fun acc v => acc + v) 0
  output.map fun v => v / sum

/-- The values of `Tensor::DimensionType` that the decoder tells apart; `invalid`
stands for any value other than the three named ones. -/
inductive DimensionType where
  | TENSORFLOW
  | CAFFE
  | CAFFE_C4
  | invalid
deriving DecidableEq

/-- The part of an MNN `Tensor` that `yolo_postprocess` reads: the element at each
offset from `host<float>()`, the dimension type and the four dimensions. -/
structure Tensor (α : Type) where
  host : Int → α
  dimType : DimensionType
  batch : Int
  channel : Int
  height : Int
  width : Int

/-- The two memory layouts the decoder supports: `channel_minor` is NHWC (Tensorflow),
`channel_major` is NCHW (Caffe). -/
inductive FeatureMapLayout where
  | channel_minor
  | channel_major
deriving DecidableEq

/-- The layout test of `yolo_postprocess`: `none` for the two branches that call
`exit(-1)`.  The test is repeated inside the loops, where it cannot fail once it has
passed here. -/
def supported_layout : DimensionType → Option FeatureMapLayout
  | .TENSORFLOW => some .channel_minor
  | .CAFFE => some .channel_major
  | .CAFFE_C4 => none
  | .invalid => none

/-- The seven offsets computed for one anchor of one feature point. -/
structure BBoxOffsets where
  bbox_x_offset : Int
  bbox_y_offset : Int
  bbox_w_offset : Int
  bbox_h_offset : Int
  bbox_obj_offset : Int
  bbox_scores_offset : Int
  bbox_scores_step : Int

/-- The offset computation of the innermost loop, for either layout. -/
def bbox_offsets (layout : FeatureMapLayout) (channel height width num_classes h w anc : Int) :
    BBoxOffsets :=
  match layout with
  | .channel_minor =>
    -- Tensorflow format tensor, NHWC
    { bbox_x_offset := h * width * channel + w * channel + anc * (num_classes + 5)
      bbox_y_offset := h * width * channel + w * channel + anc * (num_classes + 5) + 1
      bbox_w_offset := h * width * channel + w * channel + anc * (num_classes + 5) + 2
      bbox_h_offset := h * width * channel + w * channel + anc * (num_classes + 5) + 3
      bbox_obj_offset := h * width * channel + w * channel + anc * (num_classes + 5) + 4
      bbox_scores_offset := h * width * channel + w * channel + anc * (num_classes + 5) + 5
      bbox_scores_step := 1 }
  | .channel_major =>
    -- Caffe format tensor, NCHW
    { bbox_x_offset := anc * (num_classes + 5) * width * height + h * width + w
      bbox_y_offset := (anc * (num_classes + 5) + 1) * width * height + h * width + w
      bbox_w_offset := (anc * (num_classes + 5) + 2) * width * height + h * width + w
      bbox_h_offset := (anc * (num_classes + 5) + 3) * width * height + h * width + w
      bbox_obj_offset := (anc * (num_classes + 5) + 4) * width * height + h * width + w
      bbox_scores_offset := (anc * (num_classes + 5) + 5) * width * height + h * width + w
      bbox_scores_step := width * height }

/-- The value `bytesPerBatch` of `yolo_postprocess`, with `unit = sizeof(float) = 4`. -/
def bytes_per_batch (layout : FeatureMapLayout) (channel height width : Int) : Int :=
  match layout with
  | .channel_minor =>
    let bytesPerRow := channel * 4
    let bytesPerImage := width * bytesPerRow
    height * bytesPerImage
  | .channel_major =>
    let bytesPerRow := width * 4
    let bytesPerImage := height * bytesPerRow
    channel * bytesPerImage

/-- The value `tmp_conf` of class `i` in the confidence loop: the softmax score (when
there are 5 anchors) or the sigmoid of the class score, times the objectness. -/
def class_conf (exp : α → α) (bytes : Int → α) (o : BBoxOffsets)
    (anchor_num_per_layer num_classes : Int) (bbox_obj : α) (i : Int) : α :=
  -- Get softmax score for YOLOv2 prediction
  let logits_bbox_score : List α :=
    if anchor_num_per_layer = 5 then
      (class_range num_classes).map fun k => bytes (o.bbox_scores_offset + k * o.bbox_scores_step)
    else []
  let bbox_score : List α :=
    if anchor_num_per_layer = 5 then softmax exp logits_bbox_score else []
  if anchor_num_per_layer = 5 then
    -- YOLOv2 use 5 anchors and softmax class scores
    bbox_score.getD i.toNat 0 * bbox_obj
  else
    sigmoid exp (bytes (o.bbox_scores_offset + i * o.bbox_scores_step)) * bbox_obj

/-- The loop that computes `(max_conf, max_index)` from the per-class values. -/
def max_conf_loop (tmp_conf : Int → α) (num_classes : Int) : α × Int :=
  (class_range num_classes).foldl
    (fun s i => if tmp_conf i > s.1 then (tmp_conf i, i) else s) (0, -1)

/-- The body of the innermost loop of `yolo_postprocess`, for feature point `(h, w)`
and anchor `anc`: the prediction that is pushed to the result vector, if any. -/
def yolo_cell (exp : α → α) (bytes : Int → α) (layout : FeatureMapLayout)
    (channel height width stride num_classes : Int) (anchors : List (α × α))
    (conf_threshold : α) (h w anc : Int) : Option (t_prediction α) :=
  let anchor_num_per_layer : Int := anchors.length
  let o := bbox_offsets layout channel height width num_classes h w anc
  let bbox_x := sigmoid exp (bytes o.bbox_x_offset) + (w : α)
  let bbox_y := sigmoid exp (bytes o.bbox_y_offset) + (h : α)
  let bbox_w := exp (bytes o.bbox_w_offset) * (anchors.getD anc.toNat (0, 0)).1 / (stride : α)
  let bbox_h := exp (bytes o.bbox_h_offset) * (anchors.getD anc.toNat (0, 0)).2 / (stride : α)
  let bbox_obj := sigmoid exp (bytes o.bbox_obj_offset)
  -- Transfer anchor coordinates
  let bbox_x := bbox_x * (stride : α)
  let bbox_y := bbox_y * (stride : α)
  let bbox_w := bbox_w * (stride : α)
  let bbox_h := bbox_h * (stride : α)
  -- Convert centoids to top left coordinates
  let bbox_x := bbox_x - bbox_w / 2
  let bbox_y := bbox_y - bbox_h / 2
  -- get anchor output confidence (class_score * objectness) and filter with threshold
  let m := max_conf_loop (class_conf exp bytes o anchor_num_per_layer num_classes bbox_obj)
    num_classes
  if m.1 ≥ conf_threshold then
    -- got a valid prediction, form up data and push to result vector
    some ⟨bbox_x, bbox_y, bbox_w, bbox_h, m.1, m.2⟩
  else none

/-- The pointer `bytes` of batch `b` in `yolo_postprocess`, as the element it gives at
each offset: `data + b * bytesPerBatch / unit`. -/
def batch_bytes (feature_map : Tensor α) (layout : FeatureMapLayout) (b : Int) : Int → α :=
  let bytesPerBatch :=
    bytes_per_batch layout feature_map.channel feature_map.height feature_map.width
  fun i => feature_map.host (Int.tdiv (b * bytesPerBatch) 4 + i)

/-- The four nested loops of `yolo_postprocess` (batch, row `h`, column `w`, anchor
`anc`): the predictions pushed to the result vector, in the order of the pushes. -/
def decode_loops (exp : α → α) (feature_map : Tensor α) (layout : FeatureMapLayout)
    (stride num_classes : Int) (anchors : List (α × α)) (conf_threshold : α) :
    List (t_prediction α) :=
  let channel := feature_map.channel
  let height := feature_map.height
  let width := feature_map.width
  let anchor_num_per_layer : Int := anchors.length
  (class_range feature_map.batch).flatMap fun b =>
    let bytes := batch_bytes feature_map layout b
    (class_range height).flatMap fun h =>
      (class_range width).flatMap fun w =>
        (class_range anchor_num_per_layer).filterMap fun anc =>
          yolo_cell exp bytes layout channel height width stride num_classes anchors
            conf_threshold h w anc

/-- The function `yolo_postprocess`; the result is the final content of
`prediction_list`, and `none` when the run is aborted (`exit(-1)` or a failed
assertion).  `mnn_assert c` tells whether execution continues past `MNN_ASSERT(c)`.
The quotient `input_width / width` is C integer division; a zero width is undefined
behaviour in C and outside the model. -/
def yolo_postprocess (mnn_assert : Bool → Bool) (exp : α → α) (feature_map : Tensor α)
    (input_width input_height num_classes : Int) (anchors : List (α × α))
    (prediction_list : List (t_prediction α)) (conf_threshold : α) :
    Option (List (t_prediction α)) :=
  let batch := feature_map.batch
  let channel := feature_map.channel
  let width := feature_map.width
  let stride := Int.tdiv input_width width
  let anchor_num_per_layer : Int := anchors.length
  -- now we only support single image postprocess
  if mnn_assert (decide (batch = 1)) = false then none
  -- the featuremap channel should be like 3*(num_classes + 5)
  else if mnn_assert (decide (anchor_num_per_layer * (num_classes + 5) = channel)) = false then
    none
  else
    match supported_layout feature_map.dimType with
    | none => none
    | some layout =>
      some (prediction_list ++
        decode_loops exp feature_map layout stride num_classes anchors conf_threshold)

/-- The feature points and anchors `(h, w, anc)` of a feature map, in the order in
which the loops of `yolo_postprocess` visit them. -/
def grid_cells (height width anchor_num : Int) : List (Int × Int × Int) :=
  (class_range height).flatMap fun h =>
    (class_range width).flatMap fun w =>
      (class_range anchor_num).map fun anc => (h, w, anc)

/-- The reference definition of the per-class confidence, in the words of the
specification: with exactly 5 anchors, the softmax over all class logits times the
objectness; otherwise the sigmoid of the class logit times the objectness, where the
objectness is the sigmoid of the raw objectness value. -/
def per_class_confidence (exp : α → α) (class_logit : Int → α) (raw_obj : α)
    (anchor_count num_classes : Int) (i : Int) : α :=
  if anchor_count = 5 then
    exp (class_logit i) / ((class_range num_classes).map fun j => exp (class_logit j)).sum
      * sigmoid exp raw_obj
  else
    sigmoid exp (class_logit i) * sigmoid exp raw_obj

/-- The offset of the `k`-th value read for a cell: `x`, `y`, `w`, `h` and the
objectness for `k = 0, ..., 4`, the score of class `k - 5` (at
`bbox_scores_offset + (k - 5) * bbox_scores_step`) for `k ≥ 5`. -/
def field_offset (o : BBoxOffsets) (k : Int) : Int :=
  if k = 0 then o.bbox_x_offset
  else if k = 1 then o.bbox_y_offset
  else if k = 2 then o.bbox_w_offset
  else if k = 3 then o.bbox_h_offset
  else if k = 4 then o.bbox_obj_offset
  else o.bbox_scores_offset + (k - 5) * o.bbox_scores_step

end Decoder

/-! ## Concrete inputs -/

/-- A chain of three class-0 boxes: `chain_hi` overlaps `chain_mid`, `chain_mid`
overlaps `chain_lo`, and `chain_hi` overlaps `chain_lo` only a little. -/
def chain_hi : t_prediction ℚ := ⟨0, 0, 100, 100, 9/10, 0⟩

/-- The middle box of the chain. -/
def chain_mid : t_prediction ℚ := ⟨30, 0, 100, 100, 8/10, 0⟩

/-- The last box of the chain, of least confidence. -/
def chain_lo : t_prediction ℚ := ⟨60, 0, 100, 100, 1/2, 0⟩

/-- Two identical one-pixel boxes of class 0, confidences 0.9 and 0.4. -/
def unit_hi : t_prediction ℚ := ⟨0, 0, 1, 1, 9/10, 0⟩

/-- The second one-pixel box. -/
def unit_lo : t_prediction ℚ := ⟨0, 0, 1, 1, 4/10, 0⟩

/-- The anchor table `yolo3_anchors` quoted in the source (9 anchors). -/
def yolo3_anchors : List (ℚ × ℚ) :=
  [(10, 13), (16, 30), (33, 23), (30, 61), (62, 45), (59, 119), (116, 90), (156, 198),
    (373, 326)]

/-- The anchor table `tiny_yolo3_anchors` quoted in the source (6 anchors). -/
def tiny_yolo3_anchors : List (ℚ × ℚ) :=
  [(10, 14), (23, 27), (37, 58), (81, 82), (135, 169), (344, 319)]

/-- The anchor table `yolo2_anchors` quoted in the source (5 anchors). -/
def yolo2_anchors : List (ℚ × ℚ) :=
  [(18.32736, 21.67632), (59.98272, 66.00096), (106.82976, 175.17888),
    (252.25024, 112.88896), (312.65664, 293.38496)]

/-- A 1x1 channel-minor feature map of zeros with 6 channels (one anchor, one class),
single image. -/
def zero_map : Tensor ℝ := ⟨fun _ => 0, .TENSORFLOW, 1, 6, 1, 1⟩

/-- A 1x1 channel-minor feature map of zeros with 5 channels (one anchor, no class),
single image. -/
def zero_map_no_class : Tensor ℝ := ⟨fun _ => 0, .TENSORFLOW, 1, 5, 1, 1⟩

/-- The tiled layout: the feature map `zero_map` with the tag `CAFFE_C4`. -/
def tiled_map : Tensor ℝ := ⟨fun _ => 0, .CAFFE_C4, 1, 6, 1, 1⟩

/-- A malformed shape for one anchor and one class: the feature map `zero_map` with 7
channels, where `1 * (1 + 5) = 6` are expected. -/
def malformed_map : Tensor ℝ := ⟨fun _ => 0, .TENSORFLOW, 1, 7, 1, 1⟩

/-- A single anchor of width 10 and height 13. -/
def one_anchor : List (ℝ × ℝ) := [(10, 13)]

/-! ## Non-max suppression: auxiliary lemmas -/

section NMSLemmas

variable {α : Type} [LinearOrderedField α]

theorem get_iou_comm (a b : t_prediction α) : get_iou a b = get_iou b a := by
  simp only [get_iou]
  rw [max_comm a.x b.x, min_comm (a.x + a.width) (b.x + b.width), max_comm a.y b.y,
    min_comm (a.y + a.height) (b.y + b.height), add_comm (a.width * a.height)]

theorem nms_pick_nil (thr : α) : nms_pick thr [] = [] := by
  rw [nms_pick]

theorem nms_pick_concat (thr : α) (l : List (t_prediction α)) (c : t_prediction α) :
    nms_pick thr (l ++ [c]) =
      c :: nms_pick thr (l.filter fun q => !decide (get_iou c q > thr)) := by
  cases l with
  | nil => simp [nms_pick]
  | cons a t =>
    have h1 : (a :: (t ++ [c])).getLast (List.cons_ne_nil _ _) = c := by
      simp [List.getLast_cons]
    have h2 : (a :: (t ++ [c])).dropLast = a :: t := by
      simpa using @List.dropLast_concat _ (a :: t) c
    rw [List.cons_append, nms_pick]
    simp only [h1, h2]

/-- Induction along the iterations of the suppression loop. -/
theorem nms_pick_induction (thr : α) {P : List (t_prediction α) → Prop} (hnil : P [])
    (hstep : ∀ l c, P (l.filter fun q => !decide (get_iou c q > thr)) → P (l ++ [c])) :
    ∀ l, P l := by
  have key : ∀ n (l : List (t_prediction α)), l.length ≤ n → P l := by
    intro n
    induction n with
    | zero =>
      intro l hl
      have : l = [] := List.length_eq_zero.mp (Nat.le_zero.mp hl)
      subst this
      exact hnil
    | succ n ih =>
      intro l hl
      rcases List.eq_nil_or_concat l with rfl | ⟨l0, c, rfl⟩
      · exact hnil
      · rw [List.concat_eq_append] at hl ⊢
        apply hstep
        apply ih
        have h1 := List.length_filter_le (fun q => !decide (get_iou c q > thr)) l0
        simp at hl
        omega
  exact fun l => key l.length l le_rfl

theorem nms_pick_reverse_sublist (thr : α) (l : List (t_prediction α)) :
    (nms_pick thr l).reverse.Sublist l := by
  refine nms_pick_induction thr (P := fun l => (nms_pick thr l).reverse.Sublist l) ?_ ?_ l
  · simp [nms_pick_nil]
  · intro l c ih
    rw [nms_pick_concat, List.reverse_cons]
    exact List.Sublist.append (ih.trans (List.filter_sublist l)) (List.Sublist.refl [c])

theorem nms_pick_subset (thr : α) (l : List (t_prediction α)) {p : t_prediction α}
    (hp : p ∈ nms_pick thr l) : p ∈ l :=
  (nms_pick_reverse_sublist thr l).subset (List.mem_reverse.mpr hp)

/-- No picked prediction overlaps an earlier pick above the threshold. -/
theorem nms_pick_pairwise (thr : α) (l : List (t_prediction α)) :
    (nms_pick thr l).Pairwise (fun a b => ¬ thr < get_iou a b) := by
  refine nms_pick_induction thr
    (P := fun l => (nms_pick thr l).Pairwise (fun a b => ¬ thr < get_iou a b)) ?_ ?_ l
  · simp [nms_pick_nil]
  · intro l c ih
    rw [nms_pick_concat, List.pairwise_cons]
    refine ⟨?_, ih⟩
    intro q hq
    have hq2 := nms_pick_subset thr _ hq
    simpa using (List.mem_filter.mp hq2).2

/-- In a list sorted in ascending confidence, every prediction that the loop drops
is overlapped above the threshold by a pick of no smaller confidence. -/
theorem nms_pick_suppressor (thr : α) (l : List (t_prediction α)) :
    l.Pairwise (fun a b => compare_conf b a = false) →
    ∀ b, (nms_pick thr l).count b < l.count b →
      ∃ a ∈ nms_pick thr l, thr < get_iou a b ∧ b.confidence ≤ a.confidence := by
  refine nms_pick_induction thr
    (P := fun l => l.Pairwise (fun a b => compare_conf b a = false) →
      ∀ b, (nms_pick thr l).count b < l.count b →
        ∃ a ∈ nms_pick thr l, thr < get_iou a b ∧ b.confidence ≤ a.confidence) ?_ ?_ l
  · intro _ b hb
    simp [nms_pick_nil] at hb
  · intro l c ih hsorted b hb
    rw [nms_pick_concat] at hb ⊢
    rw [List.pairwise_append] at hsorted
    obtain ⟨hl, -, hlc⟩ := hsorted
    rw [List.count_cons, List.count_append, List.count_singleton] at hb
    have hcnt : (nms_pick thr (l.filter fun q => !decide (get_iou c q > thr))).count b
        < l.count b := by
      exact Nat.lt_of_add_lt_add_right hb
    by_cases hf : (l.filter fun q => !decide (get_iou c q > thr)).count b < l.count b
    · -- `b` was erased by the pick `c`
      have hbl : b ∈ l := by
        apply List.count_pos_iff.mp
        omega
      have hdrop : ¬ ((fun q => !decide (get_iou c q > thr)) b = true) := by
        intro hk
        have e := List.count_filter (l := l) (p := fun q => !decide (get_iou c q > thr))
          (a := b) hk
        rw [e] at hf
        exact lt_irrefl _ hf
      refine ⟨c, List.mem_cons_self _ _, ?_, ?_⟩
      · simpa using hdrop
      · have := hlc b hbl c (List.mem_singleton_self c)
        simpa [compare_conf] using this
    · have hle := List.Sublist.count_le
        (List.filter_sublist (p := fun q => !decide (get_iou c q > thr)) l) b
      have hlt : (nms_pick thr (l.filter fun q => !decide (get_iou c q > thr))).count b
          < (l.filter fun q => !decide (get_iou c q > thr)).count b := by
        omega
      obtain ⟨a, ha, h1, h2⟩ := ih (hl.sublist (List.filter_sublist l)) b hlt
      exact ⟨a, List.mem_cons_of_mem _ ha, h1, h2⟩

theorem mem_class_range {n c : Int} : c ∈ class_range n ↔ 0 ≤ c ∧ c < n := by
  simp only [class_range, List.mem_map, List.mem_range]
  constructor
  · rintro ⟨k, hk, rfl⟩
    omega
  · rintro ⟨h0, hn⟩
    exact ⟨c.toNat, by omega, by omega⟩

theorem nodup_class_range (n : Int) : (class_range n).Nodup := by
  apply List.Nodup.map
  · intro a b h
    exact Int.ofNat.inj h
  · exact List.nodup_range _

theorem StdSort.sort_nil (S : StdSort α) : S.sort [] = [] :=
  List.perm_nil.mp (S.perm [])

theorem nms_class_eq (S : StdSort α) (L : List (t_prediction α)) (thr : α)
    (O : List (t_prediction α)) (i : Int) :
    nms_class S L thr O i = O ++ class_pick S L thr i := by
  unfold nms_class class_pick
  by_cases h : (L.filter fun p => decide (p.class_index = i)) = []
  · simp [h, S.sort_nil, nms_pick_nil]
  · simp [h]

theorem foldl_nms_class (S : StdSort α) (L : List (t_prediction α)) (thr : α) (cs : List Int) :
    ∀ O, cs.foldl (nms_class S L thr) O = O ++ cs.flatMap (class_pick S L thr) := by
  induction cs with
  | nil => intro O; simp
  | cons c cs ih =>
    intro O
    rw [List.foldl_cons, ih, nms_class_eq, List.flatMap_cons, List.append_assoc]

theorem nms_boxes_eq (S : StdSort α) (L O : List (t_prediction α)) (n : Int) (thr : α) :
    nms_boxes S L O n thr = O ++ (class_range n).flatMap (class_pick S L thr) := by
  unfold nms_boxes
  exact foldl_nms_class S L thr _ O

theorem mem_class_pick {S : StdSort α} {L : List (t_prediction α)} {thr : α} {i : Int}
    {p : t_prediction α} (hp : p ∈ class_pick S L thr i) : p ∈ L ∧ p.class_index = i := by
  have h1 := nms_pick_subset thr _ hp
  have h2 := (S.perm _).subset h1
  simpa using List.mem_filter.mp h2

theorem filter_class_pick (S : StdSort α) (L : List (t_prediction α)) (thr : α) (i c : Int) :
    (class_pick S L thr i).filter (fun p => decide (p.class_index = c)) =
      if i = c then class_pick S L thr c else [] := by
  by_cases h : i = c
  · subst h
    simp only [if_true]
    apply List.filter_eq_self.mpr
    intro p hp
    simpa using (mem_class_pick hp).2
  · simp only [h, if_false]
    apply List.filter_eq_nil_iff.mpr
    intro p hp
    have := (mem_class_pick hp).2
    simp only [decide_eq_true_eq]
    omega

theorem filter_flatMap_class_pick (S : StdSort α) (L : List (t_prediction α)) (thr : α)
    (c : Int) (cs : List Int) (hnd : cs.Nodup) :
    (cs.flatMap (class_pick S L thr)).filter (fun p => decide (p.class_index = c)) =
      if c ∈ cs then class_pick S L thr c else [] := by
  induction cs with
  | nil => simp
  | cons a cs ih =>
    rw [List.nodup_cons] at hnd
    rw [List.flatMap_cons, List.filter_append, ih hnd.2, filter_class_pick]
    by_cases h : a = c
    · subst h
      simp [hnd.1]
    · have h2 : ¬ c = a := fun e => h e.symm
      simp [h, h2]

/-- The predictions of class `c` in the result of `nms_boxes` are the picks of class
`c` when `c` is one of the visited classes, and there are none otherwise. -/
theorem filter_nms_boxes (S : StdSort α) (L : List (t_prediction α)) (n : Int) (thr : α)
    (c : Int) :
    (nms_boxes S L [] n thr).filter (fun p => decide (p.class_index = c)) =
      if 0 ≤ c ∧ c < n then class_pick S L thr c else [] := by
  rw [nms_boxes_eq, List.nil_append, filter_flatMap_class_pick _ _ _ _ _ (nodup_class_range n)]
  simp only [mem_class_range]

theorem count_class_pick_le (S : StdSort α) (L : List (t_prediction α)) (thr : α) (i : Int)
    (x : t_prediction α) : (class_pick S L thr i).count x ≤ L.count x := by
  have h1 := (nms_pick_reverse_sublist thr
    (S.sort (L.filter fun p => decide (p.class_index = i)))).count_le x
  rw [List.count_reverse] at h1
  have h2 := (S.perm (L.filter fun p => decide (p.class_index = i))).count_eq x
  have h3 := (List.filter_sublist (p := fun p => decide (p.class_index = i)) L).count_le x
  unfold class_pick
  omega

theorem count_nms_boxes (S : StdSort α) (L : List (t_prediction α)) (n : Int) (thr : α)
    (x : t_prediction α) :
    (nms_boxes S L [] n thr).count x =
      if 0 ≤ x.class_index ∧ x.class_index < n then (class_pick S L thr x.class_index).count x
      else 0 := by
  have h := List.count_filter (l := nms_boxes S L [] n thr)
    (p := fun p => decide (p.class_index = x.class_index)) (a := x) (by simp)
  rw [← h, filter_nms_boxes]
  split <;> simp

theorem nms_boxes_subperm (S : StdSort α) (L : List (t_prediction α)) (n : Int) (thr : α) :
    (nms_boxes S L [] n thr).Subperm L := by
  rw [List.subperm_ext_iff]
  intro x _
  rw [count_nms_boxes]
  split
  · exact count_class_pick_le S L thr _ x
  · exact Nat.zero_le _

theorem nms_boxes_pairwise (S : StdSort α) (L : List (t_prediction α)) (n : Int) (thr : α) :
    (nms_boxes S L [] n thr).Pairwise
      (fun a b => a.class_index = b.class_index →
        ¬ thr < get_iou a b ∧ ¬ thr < get_iou b a) := by
  rw [nms_boxes_eq, List.nil_append, List.pairwise_flatMap]
  constructor
  · intro i _
    refine (nms_pick_pairwise thr _).imp ?_
    intro a b hab _
    exact ⟨hab, by rwa [get_iou_comm]⟩
  · refine (nodup_class_range n).imp ?_
    intro i j hij x hx y hy hxy
    exact absurd ((mem_class_pick hx).2.symm.trans (hxy.trans (mem_class_pick hy).2)) hij

/-- A list sorted in strictly ascending confidence is the only sorted rearrangement
of itself. -/
theorem sorted_perm_unique :
    ∀ (l s : List (t_prediction α)), s.Perm l →
      l.Pairwise (fun a b => a.confidence < b.confidence) →
      s.Pairwise (fun a b => compare_conf b a = false) → s = l := by
  intro l
  induction l with
  | nil => intro s hp _ _; exact List.perm_nil.mp hp
  | cons x t ih =>
    intro s hp hl hs
    cases s with
    | nil => exact absurd hp.symm (List.cons_ne_nil _ _ ∘ List.perm_nil.mp)
    | cons y u =>
      rw [List.pairwise_cons] at hl hs
      have hyx : y = x := by
        have hy : y ∈ x :: t := hp.subset (List.mem_cons_self _ _)
        have hx : x ∈ y :: u := hp.symm.subset (List.mem_cons_self _ _)
        rcases List.mem_cons.mp hy with h | h
        · exact h
        · rcases List.mem_cons.mp hx with h2 | h2
          · exact h2.symm
          · have h3 := hl.1 y h
            have h4 := hs.1 x h2
            simp only [compare_conf] at h4
            have h5 : ¬ x.confidence < y.confidence := by simpa using h4
            exact absurd h3 h5
      subst hyx
      rw [ih u (List.Perm.cons_inv hp) hl.2 hs.2]

theorem StdSort.sort_eq_of_strict (S : StdSort α) {l s : List (t_prediction α)}
    (hp : s.Perm l) (hl : l.Pairwise (fun a b => a.confidence < b.confidence)) :
    S.sort s = l :=
  sorted_perm_unique l (S.sort s) ((S.perm s).trans hp) hl (S.sorted s)

theorem get_iou_identical (a b : t_prediction α) (hx : b.x = a.x) (hy : b.y = a.y)
    (hw : b.width = a.width) (hh : b.height = a.height) (hwpos : 0 < a.width)
    (hhpos : 0 < a.height) :
    get_iou a b = (a.width + 1) * (a.height + 1) /
      (a.width * a.height + a.width * a.height - (a.width + 1) * (a.height + 1)) := by
  simp only [get_iou, hx, hy, hw, hh, max_self, min_self]
  have e1 : max 0 (a.x + a.width - a.x + 1) = a.width + 1 := by
    rw [max_eq_right]
    · ring
    · linarith
  have e2 : max 0 (a.y + a.height - a.y + 1) = a.height + 1 := by
    rw [max_eq_right]
    · ring
    · linarith
  rw [e1, e2]

/-- Two identical boxes of a visited class with `width * height > width + height + 1`
are reduced to the one of higher confidence, whatever their order in the input, for
every threshold up to 1. -/
theorem nms_boxes_identical_boxes (S : StdSort α) (a b : t_prediction α) (n : Int) (thr : α)
    (hx : b.x = a.x) (hy : b.y = a.y) (hw : b.width = a.width) (hh : b.height = a.height)
    (hc : b.class_index = a.class_index) (h0 : 0 ≤ a.class_index) (hn : a.class_index < n)
    (hwpos : 0 < a.width) (hhpos : 0 < a.height)
    (hbig : a.width + a.height + 1 < a.width * a.height)
    (hconf : b.confidence < a.confidence) (hthr : thr ≤ 1) :
    nms_boxes S [a, b] [] n thr = [a] ∧ nms_boxes S [b, a] [] n thr = [a] := by
  have hiou : thr < get_iou a b := by
    rw [get_iou_identical a b hx hy hw hh hwpos hhpos]
    have hD : 0 < a.width * a.height + a.width * a.height - (a.width + 1) * (a.height + 1) := by
      nlinarith
    rw [lt_div_iff₀ hD]
    nlinarith
  have hpick : nms_pick thr [b, a] = [a] := by
    have e : [b, a] = [b] ++ [a] := rfl
    rw [e, nms_pick_concat]
    simp [hiou, nms_pick_nil]
  have key : ∀ L : List (t_prediction α), L.Perm [b, a] → nms_boxes S L [] n thr = [a] := by
    intro L hL
    have hall : ∀ p ∈ nms_boxes S L [] n thr,
        (fun p : t_prediction α => decide (p.class_index = a.class_index)) p = true := by
      intro p hp
      have h1 := hL.subset ((nms_boxes_subperm S L n thr).subset hp)
      simp only [List.mem_cons, List.mem_singleton, List.not_mem_nil, or_false] at h1
      rcases h1 with rfl | rfl
      · simpa using hc
      · simp
    have hfilter : (L.filter fun p => decide (p.class_index = a.class_index)) = L := by
      apply List.filter_eq_self.mpr
      intro p hp
      have h1 := hL.subset hp
      simp only [List.mem_cons, List.mem_singleton, List.not_mem_nil, or_false] at h1
      rcases h1 with rfl | rfl
      · simpa using hc
      · simp
    rw [← List.filter_eq_self.mpr hall, filter_nms_boxes, if_pos ⟨h0, hn⟩]
    unfold class_pick
    rw [hfilter, S.sort_eq_of_strict hL (by simp [hconf]), hpick]
  exact ⟨key [a, b] (List.Perm.swap b a []), key [b, a] (List.Perm.refl _)⟩

end NMSLemmas

/-! ## Non-max suppression: properties -/

section NMSProperties

variable {α : Type} [LinearOrderedField α]

/-- C1: `nms_boxes` only filters.  The output is no longer than the input, every
output prediction is (field for field) an input prediction, and the output is a
rearrangement of a sublist `K` of the input, so nothing is fabricated, mutated or
duplicated. -/
theorem nms_boxes_only_filters (S : StdSort α) (L : List (t_prediction α)) (n : Int)
    (thr : α) :
    (nms_boxes S L [] n thr).length ≤ L.length ∧
    (∀ p ∈ nms_boxes S L [] n thr, p ∈ L) ∧
    ∃ K, K.Sublist L ∧ (nms_boxes S L [] n thr).Perm K := by
  have h := nms_boxes_subperm S L n thr
  refine ⟨h.length_le, fun p hp => h.subset hp, ?_⟩
  obtain ⟨K, hK, hKL⟩ := h
  exact ⟨K, hKL, hK.symm⟩

/-- C2: of two input predictions at distinct positions with the same class and an IoU
above the threshold, at most one survives.  The survivors are the entries of a sublist
`K` of the input (a choice of input positions), and no two entries of `K` of the same
class have an IoU above the threshold, in either argument order. -/
theorem nms_boxes_overlapping_pair (S : StdSort α) (L : List (t_prediction α)) (n : Int)
    (thr : α) :
    ∃ K, K.Sublist L ∧ (nms_boxes S L [] n thr).Perm K ∧
      K.Pairwise (fun a b => a.class_index = b.class_index →
        ¬ thr < get_iou a b ∧ ¬ thr < get_iou b a) := by
  obtain ⟨K, hK, hKL⟩ := nms_boxes_subperm S L n thr
  refine ⟨K, hKL, hK.symm, ?_⟩
  refine (List.Perm.pairwise_iff ?_ hK.symm).mp (nms_boxes_pairwise S L n thr)
  intro x y hxy hc
  have := hxy hc.symm
  exact ⟨this.2, this.1⟩

/-- C3 (as amended): a prediction `b` of a visited class that `nms_boxes` removes (it
occurs fewer times in the output than in the input) is overlapped above the threshold
by an output prediction `a` of the same class with `a.confidence ≥ b.confidence`. -/
theorem nms_boxes_removed_has_suppressor (S : StdSort α) (L : List (t_prediction α))
    (n : Int) (thr : α) (b : t_prediction α) (h0 : 0 ≤ b.class_index)
    (hn : b.class_index < n) (hb : (nms_boxes S L [] n thr).count b < L.count b) :
    ∃ a ∈ nms_boxes S L [] n thr, a.class_index = b.class_index ∧
      thr < get_iou a b ∧ b.confidence ≤ a.confidence := by
  rw [count_nms_boxes, if_pos ⟨h0, hn⟩] at hb
  have hsort := S.perm (L.filter fun p => decide (p.class_index = b.class_index))
  have hcount : (L.filter fun p => decide (p.class_index = b.class_index)).count b
      = L.count b :=
    List.count_filter (l := L) (p := fun p => decide (p.class_index = b.class_index))
      (a := b) (by simp)
  have hlt : (nms_pick thr (S.sort (L.filter fun p => decide (p.class_index = b.class_index)))).count b
      < (S.sort (L.filter fun p => decide (p.class_index = b.class_index))).count b := by
    rw [hsort.count_eq, hcount]
    exact hb
  obtain ⟨a, ha, h1, h2⟩ := nms_pick_suppressor thr _ (S.sorted _) b hlt
  have hacl : a ∈ class_pick S L thr b.class_index := ha
  have hmem : a ∈ nms_boxes S L [] n thr := by
    have hf : a ∈ (nms_boxes S L [] n thr).filter
        (fun p => decide (p.class_index = b.class_index)) := by
      rw [filter_nms_boxes, if_pos ⟨h0, hn⟩]
      exact hacl
    exact (List.mem_filter.mp hf).1
  exact ⟨a, hmem, (mem_class_pick hacl).2, h1, h2⟩

/-- C4: no cross-class suppression.  For a visited class `c`, the class-`c` part of
the output is the output of `nms_boxes` on the class-`c` part of the input alone;
hence two inputs with the same class-`c` predictions have the same class-`c`
survivors. -/
theorem nms_boxes_no_cross_class (S : StdSort α) (L : List (t_prediction α)) (n : Int)
    (thr : α) (c : Int) (h0 : 0 ≤ c) (hn : c < n) :
    (nms_boxes S L [] n thr).filter (fun p => decide (p.class_index = c)) =
      nms_boxes S (L.filter fun p => decide (p.class_index = c)) [] n thr ∧
    ∀ L' : List (t_prediction α),
      (L'.filter fun p => decide (p.class_index = c)) =
        (L.filter fun p => decide (p.class_index = c)) →
      (nms_boxes S L' [] n thr).filter (fun p => decide (p.class_index = c)) =
        (nms_boxes S L [] n thr).filter (fun p => decide (p.class_index = c)) := by
  constructor
  · have hall : ∀ p ∈ nms_boxes S (L.filter fun p => decide (p.class_index = c)) [] n thr,
        (fun p : t_prediction α => decide (p.class_index = c)) p = true := by
      intro p hp
      have := (nms_boxes_subperm S _ n thr).subset hp
      exact (List.mem_filter.mp this).2
    rw [← List.filter_eq_self.mpr hall, filter_nms_boxes, filter_nms_boxes]
    simp only [if_pos (And.intro h0 hn)]
    unfold class_pick
    rw [List.filter_filter]
    simp
  · intro L' hL
    rw [filter_nms_boxes, filter_nms_boxes]
    unfold class_pick
    rw [hL]

end NMSProperties

/-! ### Concrete runs -/

theorem class_range_one : class_range 1 = [0] := by
  decide

theorem nms_boxes_chain (S : StdSort ℚ) :
    nms_boxes S [chain_hi, chain_mid, chain_lo] [] 1 (2/5) = [chain_hi, chain_lo] := by
  have hs : S.sort [chain_hi, chain_mid, chain_lo] = [chain_lo, chain_mid, chain_hi] := by
    apply S.sort_eq_of_strict (List.reverse_perm [chain_lo, chain_mid, chain_hi])
    norm_num [chain_hi, chain_mid, chain_lo]
  have hf : ([chain_hi, chain_mid, chain_lo].filter fun p => decide (p.class_index = 0))
      = [chain_hi, chain_mid, chain_lo] := by
    simp [chain_hi, chain_mid, chain_lo]
  rw [nms_boxes_eq, class_range_one]
  simp only [List.flatMap_cons, List.flatMap_nil, List.nil_append, List.append_nil, class_pick]
  rw [hf, hs]
  norm_num [nms_pick, get_iou, chain_hi, chain_mid, chain_lo]

theorem nms_boxes_unit (S : StdSort ℚ) :
    nms_boxes S [unit_hi, unit_lo] [] 1 (2/5) = [unit_hi, unit_lo] := by
  have hs : S.sort [unit_hi, unit_lo] = [unit_lo, unit_hi] := by
    apply S.sort_eq_of_strict (List.reverse_perm [unit_lo, unit_hi])
    norm_num [unit_hi, unit_lo]
  have hf : ([unit_hi, unit_lo].filter fun p => decide (p.class_index = 0))
      = [unit_hi, unit_lo] := by
    simp [unit_hi, unit_lo]
  rw [nms_boxes_eq, class_range_one]
  simp only [List.flatMap_cons, List.flatMap_nil, List.nil_append, List.append_nil, class_pick]
  rw [hf, hs]
  norm_num [nms_pick, get_iou, unit_hi, unit_lo]

/-- C3 (counterexample): with threshold 0.4, `chain_hi` suppresses `chain_mid` and
`chain_lo` survives, for every implementation of the sort.  So `chain_lo` is in the
output, `chain_mid` is not, both have class 0 and an IoU above the threshold, and yet
the survivor has the smaller confidence (0.5 against 0.8). -/
theorem nms_boxes_survivor_below_removed :
    (∀ S : StdSort ℚ,
      nms_boxes S [chain_hi, chain_mid, chain_lo] [] 1 (2/5) = [chain_hi, chain_lo]) ∧
    chain_lo ∈ [chain_hi, chain_lo] ∧ chain_mid ∉ [chain_hi, chain_lo] ∧
    chain_lo.class_index = chain_mid.class_index ∧
    (2/5 : ℚ) < get_iou chain_lo chain_mid ∧
    ¬ (chain_mid.confidence ≤ chain_lo.confidence) := by
  refine ⟨nms_boxes_chain, ?_, ?_, ?_, ?_, ?_⟩
  · simp
  · simp [chain_hi, chain_mid, chain_lo]
  · rfl
  · norm_num [get_iou, chain_mid, chain_lo]
  · norm_num [chain_mid, chain_lo]

/-- Witness for C3 (as amended): `chain_mid` is removed from the chain, and
`chain_hi` is its suppressor. -/
theorem nms_boxes_removed_has_suppressor_witness :
    (0 : Int) ≤ chain_mid.class_index ∧ chain_mid.class_index < 1 ∧
    (nms_boxes insertion_sort [chain_hi, chain_mid, chain_lo] [] 1 (2/5)).count chain_mid
      < [chain_hi, chain_mid, chain_lo].count chain_mid ∧
    ∃ a ∈ nms_boxes insertion_sort [chain_hi, chain_mid, chain_lo] [] 1 (2/5),
      a.class_index = chain_mid.class_index ∧
      (2/5 : ℚ) < get_iou a chain_mid ∧ chain_mid.confidence ≤ a.confidence := by
  have hb : (nms_boxes insertion_sort [chain_hi, chain_mid, chain_lo] [] 1 (2/5)).count chain_mid
      < [chain_hi, chain_mid, chain_lo].count chain_mid := by
    rw [nms_boxes_chain]
    simp [List.count_cons, chain_hi, chain_mid, chain_lo]
  exact ⟨by decide, by decide, hb,
    nms_boxes_removed_has_suppressor insertion_sort [chain_hi, chain_mid, chain_lo] 1 (2/5)
      chain_mid (by decide) (by decide) hb⟩

/-- Witness for C4: class 0 of the chain, one class. -/
theorem nms_boxes_no_cross_class_witness :
    (0 : Int) ≤ 0 ∧ (0 : Int) < 1 ∧
    ((nms_boxes insertion_sort [chain_hi, chain_mid, chain_lo] [] 1 (2/5)).filter
        (fun p => decide (p.class_index = 0)) =
      nms_boxes insertion_sort
        ([chain_hi, chain_mid, chain_lo].filter fun p => decide (p.class_index = 0)) [] 1 (2/5) ∧
    ∀ L' : List (t_prediction ℚ),
      (L'.filter fun p => decide (p.class_index = 0)) =
        ([chain_hi, chain_mid, chain_lo].filter fun p => decide (p.class_index = 0)) →
      (nms_boxes insertion_sort L' [] 1 (2/5)).filter (fun p => decide (p.class_index = 0)) =
        (nms_boxes insertion_sort [chain_hi, chain_mid, chain_lo] [] 1 (2/5)).filter
          (fun p => decide (p.class_index = 0))) :=
  ⟨by decide, by decide,
    nms_boxes_no_cross_class insertion_sort [chain_hi, chain_mid, chain_lo] 1 (2/5) 0
      (by decide) (by decide)⟩

/-- C5 (the code at the failing input): two identical one-pixel boxes of class 0 with
confidences 0.9 and 0.4.  `get_iou` returns `4 / (1 + 1 - 4) = -2`, which is not above
the threshold 0.4, and `nms_boxes` keeps both boxes, for every implementation of the
sort. -/
theorem nms_boxes_identical_unit_boxes :
    get_iou unit_hi unit_lo = -2 ∧
    ∀ S : StdSort ℚ, nms_boxes S [unit_hi, unit_lo] [] 1 (2/5) = [unit_hi, unit_lo] := by
  refine ⟨?_, nms_boxes_unit⟩
  norm_num [get_iou, unit_hi, unit_lo]

/-! ## Anchor selection: properties -/

section AnchorProperties

variable {α : Type}

theorem length_nine {l : List α} (h : l.length = 9) :
    ∃ a0 a1 a2 a3 a4 a5 a6 a7 a8, l = [a0, a1, a2, a3, a4, a5, a6, a7, a8] := by
  match l, h with
  | [a0, a1, a2, a3, a4, a5, a6, a7, a8], _ => exact ⟨_, _, _, _, _, _, _, _, _, rfl⟩

theorem length_six {l : List α} (h : l.length = 6) :
    ∃ a0 a1 a2 a3 a4 a5, l = [a0, a1, a2, a3, a4, a5] := by
  match l, h with
  | [a0, a1, a2, a3, a4, a5], _ => exact ⟨_, _, _, _, _, _, rfl⟩

/-- C6: `get_anchorset` returns the contiguous slice of the fixed table, in the
original order, with `stride = input_width / feature_width` (integer division,
`feature_width > 0`): 9 anchors give indices 6..8, 3..5, 0..2 for strides 32, 16, 8;
6 anchors give indices 3..5, 0..2 for strides 32, 16; 5 anchors give the whole table
whatever the stride. -/
theorem get_anchorset_slice (anchors : List (α × α)) (feature_width input_width : Int)
    (_hfw : 0 < feature_width) :
    (anchors.length = 9 → Int.tdiv input_width feature_width = 32 →
      get_anchorset anchors feature_width input_width = some ((anchors.drop 6).take 3)) ∧
    (anchors.length = 9 → Int.tdiv input_width feature_width = 16 →
      get_anchorset anchors feature_width input_width = some ((anchors.drop 3).take 3)) ∧
    (anchors.length = 9 → Int.tdiv input_width feature_width = 8 →
      get_anchorset anchors feature_width input_width = some ((anchors.drop 0).take 3)) ∧
    (anchors.length = 6 → Int.tdiv input_width feature_width = 32 →
      get_anchorset anchors feature_width input_width = some ((anchors.drop 3).take 3)) ∧
    (anchors.length = 6 → Int.tdiv input_width feature_width = 16 →
      get_anchorset anchors feature_width input_width = some ((anchors.drop 0).take 3)) ∧
    (anchors.length = 5 →
      get_anchorset anchors feature_width input_width = some anchors) := by
  refine ⟨?_, ?_, ?_, ?_, ?_, ?_⟩
  · intro h hs
    obtain ⟨a0, a1, a2, a3, a4, a5, a6, a7, a8, rfl⟩ := length_nine h
    simp [get_anchorset, hs]
  · intro h hs
    obtain ⟨a0, a1, a2, a3, a4, a5, a6, a7, a8, rfl⟩ := length_nine h
    simp [get_anchorset, hs]
  · intro h hs
    obtain ⟨a0, a1, a2, a3, a4, a5, a6, a7, a8, rfl⟩ := length_nine h
    simp [get_anchorset, hs]
  · intro h hs
    obtain ⟨a0, a1, a2, a3, a4, a5, rfl⟩ := length_six h
    simp [get_anchorset, hs]
  · intro h hs
    obtain ⟨a0, a1, a2, a3, a4, a5, rfl⟩ := length_six h
    simp [get_anchorset, hs]
  · intro h
    simp [get_anchorset, h]

theorem get_anchorset_sublist (anchors s : List (α × α)) (feature_width input_width : Int)
    (h : get_anchorset anchors feature_width input_width = some s) : s.Sublist anchors := by
  by_cases h9 : anchors.length = 9
  · obtain ⟨a0, a1, a2, a3, a4, a5, a6, a7, a8, rfl⟩ := length_nine h9
    simp only [get_anchorset] at h
    split_ifs at h
    · cases h
      exact (List.take_sublist 3 _).trans (List.drop_sublist 6 [a0, a1, a2, a3, a4, a5, a6, a7, a8])
    · cases h
      exact (List.take_sublist 3 _).trans (List.drop_sublist 3 [a0, a1, a2, a3, a4, a5, a6, a7, a8])
    · cases h
      exact List.take_sublist 3 [a0, a1, a2, a3, a4, a5, a6, a7, a8]
  · by_cases h6 : anchors.length = 6
    · obtain ⟨a0, a1, a2, a3, a4, a5, rfl⟩ := length_six h6
      simp only [get_anchorset] at h
      split_ifs at h
      · cases h
        exact (List.take_sublist 3 _).trans (List.drop_sublist 3 [a0, a1, a2, a3, a4, a5])
      · cases h
        exact List.take_sublist 3 [a0, a1, a2, a3, a4, a5]
    · simp only [get_anchorset, h9, h6, dite_false] at h
      split_ifs at h
      cases h
      exact List.Sublist.refl _

/-- C7: `get_anchorset` aborts exactly when the anchor count is none of 9, 6, 5, or
it is 9 and the stride `input_width / feature_width` is none of 32, 16, 8, or it is 6
and the stride is none of 32, 16; in every other case it returns a sublist of the
table.  The stride is defined for `feature_width ≠ 0`. -/
theorem get_anchorset_fails_iff (anchors : List (α × α)) (feature_width input_width : Int)
    (_hfw : feature_width ≠ 0) :
    (get_anchorset anchors feature_width input_width = none ↔
      (anchors.length ≠ 9 ∧ anchors.length ≠ 6 ∧ anchors.length ≠ 5) ∨
      (anchors.length = 9 ∧ Int.tdiv input_width feature_width ≠ 32 ∧
        Int.tdiv input_width feature_width ≠ 16 ∧ Int.tdiv input_width feature_width ≠ 8) ∨
      (anchors.length = 6 ∧ Int.tdiv input_width feature_width ≠ 32 ∧
        Int.tdiv input_width feature_width ≠ 16)) ∧
    (get_anchorset anchors feature_width input_width ≠ none →
      ∃ s, get_anchorset anchors feature_width input_width = some s ∧ s.Sublist anchors) := by
  constructor
  · simp only [get_anchorset]
    split_ifs <;> simp_all
  · intro h
    obtain ⟨s, hs⟩ := Option.ne_none_iff_exists'.mp h
    exact ⟨s, hs, get_anchorset_sublist anchors s feature_width input_width hs⟩

end AnchorProperties

/-- Witness for C6: the three tables of the source at input width 416 and feature
widths 13, 26, 52 (strides 32, 16, 8). -/
theorem get_anchorset_slice_witness :
    get_anchorset yolo3_anchors 13 416 = some [(116, 90), (156, 198), (373, 326)] ∧
    get_anchorset yolo3_anchors 26 416 = some [(30, 61), (62, 45), (59, 119)] ∧
    get_anchorset yolo3_anchors 52 416 = some [(10, 13), (16, 30), (33, 23)] ∧
    get_anchorset tiny_yolo3_anchors 13 416 = some [(81, 82), (135, 169), (344, 319)] ∧
    get_anchorset tiny_yolo3_anchors 26 416 = some [(10, 14), (23, 27), (37, 58)] ∧
    get_anchorset yolo2_anchors 13 416 = some yolo2_anchors :=
  ⟨(get_anchorset_slice yolo3_anchors 13 416 (by decide)).1 rfl (by decide),
    (get_anchorset_slice yolo3_anchors 26 416 (by decide)).2.1 rfl (by decide),
    (get_anchorset_slice yolo3_anchors 52 416 (by decide)).2.2.1 rfl (by decide),
    (get_anchorset_slice tiny_yolo3_anchors 13 416 (by decide)).2.2.2.1 rfl (by decide),
    (get_anchorset_slice tiny_yolo3_anchors 26 416 (by decide)).2.2.2.2.1 rfl (by decide),
    (get_anchorset_slice yolo2_anchors 13 416 (by decide)).2.2.2.2.2 rfl⟩

/-- Witness for C7: the 9-anchor table with feature width 10 (stride 41) aborts,
with feature width 13 (stride 32) it returns a sublist. -/
theorem get_anchorset_fails_iff_witness :
    (10 : Int) ≠ 0 ∧ get_anchorset yolo3_anchors 10 416 = none ∧
    (13 : Int) ≠ 0 ∧ get_anchorset yolo3_anchors 13 416 ≠ none ∧
    ∃ s, get_anchorset yolo3_anchors 13 416 = some s ∧ s.Sublist yolo3_anchors :=
  ⟨by decide,
    (get_anchorset_fails_iff yolo3_anchors 10 416 (by decide)).1.mpr
      (Or.inr (Or.inl ⟨rfl, by decide, by decide, by decide⟩)),
    by decide,
    fun h => ((get_anchorset_fails_iff yolo3_anchors 13 416 (by decide)).1.mp h).elim
      (fun h1 => h1.1 rfl)
      (fun h2 => h2.elim (fun h3 => h3.2.1 (by decide)) (fun h4 => absurd h4.1 (by decide))),
    (get_anchorset_fails_iff yolo3_anchors 13 416 (by decide)).2
      (fun h => ((get_anchorset_fails_iff yolo3_anchors 13 416 (by decide)).1.mp h).elim
        (fun h1 => h1.1 rfl)
        (fun h2 => h2.elim (fun h3 => h3.2.1 (by decide)) (fun h4 => absurd h4.1 (by decide))))⟩

/-! ## Anchor file parsing: properties -/

section ParseLemmas

theorem comma_offset_of_not_mem {t : List Char} (h : ',' ∉ t) : comma_offset t = none := by
  induction t with
  | nil => rfl
  | cons c cs ih =>
    rw [List.mem_cons, not_or] at h
    have hc : c ≠ ',' := fun e => h.1 e.symm
    simp [comma_offset, hc, ih h.2]

theorem comma_offset_append {t : List Char} (h : ',' ∉ t) (r : List Char) :
    comma_offset (t ++ ',' :: r) = some t.length := by
  induction t with
  | nil => simp [comma_offset]
  | cons c cs ih =>
    rw [List.mem_cons, not_or] at h
    have hc : c ≠ ',' := fun e => h.1 e.symm
    simp [comma_offset, hc, ih h.2]

theorem find_comma_append (pre rest : List Char) :
    find_comma (pre ++ rest) pre.length =
      match comma_offset rest with
      | some k => pre.length + k
      | none => npos := by
  simp [find_comma]

theorem substr_append (pre rest : List Char) (len : Nat) :
    substr (pre ++ rest) pre.length len = some (rest.take len) := by
  simp [substr]

/-- One token followed by a comma: `find` returns the position of the comma, `substr`
returns the token, and the cursor moves behind the comma. -/
theorem token_step (pre tok rest : List Char) (h : ',' ∉ tok)
    (hlen : (pre ++ (tok ++ ',' :: rest)).length < npos) :
    find_comma (pre ++ (tok ++ ',' :: rest)) pre.length = pre.length + tok.length ∧
    substr (pre ++ (tok ++ ',' :: rest)) pre.length
      (size_sub (pre.length + tok.length) pre.length) = some tok ∧
    size_succ (pre.length + tok.length) = (pre ++ tok ++ [',']).length ∧
    pre.length + tok.length ≠ npos := by
  simp only [List.length_append, List.length_cons, npos] at hlen
  refine ⟨?_, ?_, ?_, ?_⟩
  · rw [find_comma_append, comma_offset_append h]
  · have e : size_sub (pre.length + tok.length) pre.length = tok.length := by
      unfold size_sub
      omega
    rw [substr_append, e]
    simp
  · simp only [size_succ, List.length_append, List.length_singleton]
    omega
  · simp only [npos]
    omega

/-- The last token of a line: `find` returns `npos` and `substr` returns the token. -/
theorem last_token_step (pre tok : List Char) (h : ',' ∉ tok)
    (hlen : (pre ++ tok).length < npos) :
    find_comma (pre ++ tok) pre.length = npos ∧
    substr (pre ++ tok) pre.length (size_sub npos pre.length) = some tok := by
  simp only [List.length_append, npos] at hlen
  refine ⟨?_, ?_⟩
  · rw [find_comma_append, comma_offset_of_not_mem h]
  · rw [substr_append]
    have e : tok.length ≤ size_sub npos pre.length := by
      unfold size_sub npos
      omega
    rw [List.take_of_length_le e]

theorem pair_line_eq_intercalate (ps : List (List Char × List Char)) :
    List.intercalate [','] (ps.flatMap fun p => [p.1, p.2]) = pair_line ps := by
  induction ps with
  | nil => rfl
  | cons p rest ih =>
    cases rest with
    | nil => simp [pair_line, List.intercalate, List.intersperse]
    | cons q rest =>
      simp only [pair_line, ← ih]
      simp [List.intercalate, List.intersperse]

theorem parse_anchors_loop_pairs {β : Type} (atof : List Char → β) :
    ∀ (ps : List (List Char × List Char)), ps ≠ [] →
      (∀ p ∈ ps, ',' ∉ p.1 ∧ ',' ∉ p.2) →
      ∀ (pre : List Char) (fuel next : Nat) (anchors : List (β × β)),
        next ≠ npos → (pre ++ pair_line ps).length < npos → ps.length ≤ fuel →
        parse_anchors_loop atof (pre ++ pair_line ps) fuel pre.length next anchors =
          .ok (anchors ++ ps.map fun p => (atof p.1, atof p.2)) := by
  intro ps
  induction ps with
  | nil => intro h; exact absurd rfl h
  | cons p rest ih =>
    intro _ hcomma pre fuel next anchors hnext hlen hfuel
    obtain ⟨hp1, hp2⟩ := hcomma p (List.mem_cons_self _ _)
    obtain ⟨f, rfl⟩ : ∃ f, fuel = f + 1 := ⟨fuel - 1, by simp at hfuel; omega⟩
    cases rest with
    | nil =>
      simp only [pair_line] at hlen ⊢
      obtain ⟨e1, e2, e3, _⟩ := token_step pre p.1 p.2 hp1 hlen
      have hlen2 : ((pre ++ p.1 ++ [',']) ++ p.2).length < npos := by
        simpa using hlen
      obtain ⟨e4, e5⟩ := last_token_step (pre ++ p.1 ++ [',']) p.2 hp2 hlen2
      have eline : pre ++ (p.1 ++ ',' :: p.2) = (pre ++ p.1 ++ [',']) ++ p.2 := by simp
      rw [parse_anchors_loop, if_neg hnext]
      simp only [e1, e2, e3]
      rw [eline, e4, e5]
      cases f <;> simp [parse_anchors_loop]
    | cons q rest =>
      simp only [pair_line] at hlen ⊢
      obtain ⟨e1, e2, e3, _⟩ :=
        token_step pre p.1 (p.2 ++ ',' :: pair_line (q :: rest)) hp1 hlen
      have eline : pre ++ (p.1 ++ ',' :: (p.2 ++ ',' :: pair_line (q :: rest))) =
          (pre ++ p.1 ++ [',']) ++ (p.2 ++ ',' :: pair_line (q :: rest)) := by simp
      have hlen2 : ((pre ++ p.1 ++ [',']) ++ (p.2 ++ ',' :: pair_line (q :: rest))).length
          < npos := by
        rw [← eline]; exact hlen
      obtain ⟨e4, e5, e6, e7⟩ :=
        token_step (pre ++ p.1 ++ [',']) p.2 (pair_line (q :: rest)) hp2 hlen2
      have eline2 : (pre ++ p.1 ++ [',']) ++ (p.2 ++ ',' :: pair_line (q :: rest)) =
          (pre ++ p.1 ++ [','] ++ p.2 ++ [',']) ++ pair_line (q :: rest) := by simp
      have hlen3 : ((pre ++ p.1 ++ [','] ++ p.2 ++ [',']) ++ pair_line (q :: rest)).length
          < npos := by
        rw [← eline2]; exact hlen2
      have hrec := ih (List.cons_ne_nil _ _)
        (fun r hr => hcomma r (List.mem_cons_of_mem _ hr))
        (pre ++ p.1 ++ [','] ++ p.2 ++ [',']) f
        ((pre ++ p.1 ++ [',']).length + p.2.length) (anchors ++ [(atof p.1, atof p.2)])
        e7 hlen3 (by simp at hfuel ⊢; omega)
      rw [parse_anchors_loop, if_neg hnext]
      simp only [e1, e2, e3]
      rw [eline, e4, e5]
      simp only [e6]
      rw [eline2, hrec]
      simp

end ParseLemmas

section ParseProperties

theorem length_le_pair_line (ps : List (List Char × List Char)) :
    ps.length ≤ (pair_line ps).length + 1 := by
  induction ps with
  | nil => simp
  | cons p rest ih =>
    cases rest with
    | nil => simp [pair_line]
    | cons q rest =>
      simp only [pair_line, List.length_cons, List.length_append] at ih ⊢
      omega

/-- C8: a line of `2n` comma-separated tokens (`n ≥ 1`), given as the `n` pairs `ps` of
comma-free tokens, makes `parse_anchors` append the `n` pairs of converted tokens, in
order, behind the anchors already in the list.  The line is shorter than `npos`, as
every `std::string` is. -/
theorem parse_anchors_pairs {β : Type} (atof : List Char → β)
    (ps : List (List Char × List Char)) (anchors : List (β × β)) (hne : ps ≠ [])
    (hcomma : ∀ p ∈ ps, ',' ∉ p.1 ∧ ',' ∉ p.2)
    (hlen : (List.intercalate [','] (ps.flatMap fun p => [p.1, p.2])).length < npos) :
    parse_anchors atof (List.intercalate [','] (ps.flatMap fun p => [p.1, p.2])) anchors =
      .ok (anchors ++ ps.map fun p => (atof p.1, atof p.2)) := by
  rw [pair_line_eq_intercalate] at hlen ⊢
  have h := parse_anchors_loop_pairs atof ps hne hcomma [] ((pair_line ps).length + 1) 0
    anchors (by decide) (by simpa using hlen) (length_le_pair_line ps)
  simpa [parse_anchors] using h

/-- Witness for C8: the line `10,13,16,30`. -/
theorem parse_anchors_pairs_witness :
    [("10".toList, "13".toList), ("16".toList, "30".toList)] ≠ [] ∧
    (∀ p ∈ [("10".toList, "13".toList), ("16".toList, "30".toList)],
      ',' ∉ p.1 ∧ ',' ∉ p.2) ∧
    (List.intercalate [',']
      ([("10".toList, "13".toList), ("16".toList, "30".toList)].flatMap
        fun p => [p.1, p.2])) = "10,13,16,30".toList ∧
    parse_anchors id
      (List.intercalate [',']
        ([("10".toList, "13".toList), ("16".toList, "30".toList)].flatMap
          fun p => [p.1, p.2])) [] =
      .ok ([] ++ [("10".toList, "13".toList), ("16".toList, "30".toList)].map
        fun p => (id p.1, id p.2)) :=
  ⟨by decide, by decide, by decide,
    parse_anchors_pairs id [("10".toList, "13".toList), ("16".toList, "30".toList)] []
      (by decide) (by decide) (by decide)⟩

/-- C9 (the code at the failing inputs): on the three-token line `1,2,3` the loop does
not stop at the unpaired token `3`: the first `find` returns `npos`, the cursor wraps
to `0`, and the loop appends `(3, 1)` and then `(2, 3)` behind `(1, 2)`.  On the
one-token line `5` it appends `(5, 5)`. -/
theorem parse_anchors_odd_line :
    parse_anchors id "1,2,3".toList [] =
      .ok [("1".toList, "2".toList), ("3".toList, "1".toList), ("2".toList, "3".toList)] ∧
    parse_anchors id "5".toList [] = .ok [("5".toList, "5".toList)] :=
  ⟨rfl, rfl⟩

end ParseProperties

/-! ## Letterbox geometry: properties -/

section LetterboxProperties

variable {α : Type} [LinearOrderedField α]

theorem floor_half_eq_tdiv [FloorRing α] (d : Int) (hd : 0 ≤ d) :
    ⌊((d : Int) : α) / 2⌋ = Int.tdiv d 2 := by
  rw [Int.tdiv_eq_ediv hd (by decide), Int.floor_eq_iff]
  have h1 := Int.ediv_add_emod d 2
  have h2 := Int.emod_nonneg d (by decide : (2 : Int) ≠ 0)
  have h3 := Int.emod_lt_of_pos d (by decide : (0 : Int) < 2)
  have e : (d : α) = 2 * ((d / 2 : Int) : α) + ((d % 2 : Int) : α) := by
    exact_mod_cast h1.symm
  have b0 : (0 : α) ≤ ((d % 2 : Int) : α) := by exact_mod_cast h2
  have b1 : ((d % 2 : Int) : α) ≤ 1 := by
    have : d % 2 ≤ 1 := by omega
    exact_mod_cast this
  constructor
  · linarith
  · linarith

/-- C10: `adjust_boxes` equals its reference definition whenever it gets past its
assertion: the result is the reference rescaling of the list, of the same length, with
the confidences and class indices unchanged and in the same order. -/
theorem adjust_boxes_eq_reference [FloorRing α] (mnn_assert : Bool → Bool)
    (L : List (t_prediction α)) (image_width image_height input_width input_height : Int)
    (hassert : mnn_assert (decide (input_width = input_height)) = true) :
    ∃ out, adjust_boxes mnn_assert L image_width image_height input_width input_height
        = some out ∧
      out = adjust_boxes_reference L image_width image_height input_width ∧
      out.length = L.length ∧
      out.map (fun p => p.confidence) = L.map (fun p => p.confidence) ∧
      out.map (fun p => p.class_index) = L.map (fun p => p.class_index) := by
  refine ⟨adjust_boxes_reference L image_width image_height input_width, ?_, rfl, ?_, ?_, ?_⟩
  · simp only [adjust_boxes, hassert, adjust_boxes_reference]
    by_cases h : image_width > image_height
    · have hd : 0 ≤ image_width - image_height := by omega
      have e := @floor_half_eq_tdiv α _ _ _ hd
      push_cast at e
      simp [h, e]
    · have hd : 0 ≤ image_height - image_width := by omega
      have e := @floor_half_eq_tdiv α _ _ _ hd
      push_cast at e
      simp [h, e]
  · simp [adjust_boxes_reference]
  · simp [adjust_boxes_reference]
  · simp [adjust_boxes_reference]

end LetterboxProperties

/-- Witness for C10: a portrait 480x640 image, a 416x416 model input, assertions
compiled in (`MNN_ASSERT(c)` continues exactly when `c` holds). -/
theorem adjust_boxes_eq_reference_witness :
    id (decide ((416 : Int) = 416)) = true ∧
    ∃ out, adjust_boxes id [chain_hi, chain_mid] 480 640 416 416 = some out ∧
      out = adjust_boxes_reference [chain_hi, chain_mid] 480 640 416 ∧
      out.length = [chain_hi, chain_mid].length ∧
      out.map (fun p => p.confidence) = [chain_hi, chain_mid].map (fun p => p.confidence) ∧
      out.map (fun p => p.class_index) = [chain_hi, chain_mid].map (fun p => p.class_index) :=
  ⟨rfl, adjust_boxes_eq_reference id [chain_hi, chain_mid] 480 640 416 416 rfl⟩

/-! ## Letterbox geometry: square images and the 640x480 scenario -/

section LetterboxScenarios

variable {α : Type} [LinearOrderedField α]

/-- C11 (as amended): for a square original image the offsets are `0` and the scale is
`image_width / input_width`, so `adjust_boxes` multiplies `x`, `y`, `width` and
`height` by that scale; it leaves them unchanged when the image is as wide as the
model input. -/
theorem adjust_boxes_square (mnn_assert : Bool → Bool) (L : List (t_prediction α))
    (image_width input_width input_height : Int)
    (hassert : mnn_assert (decide (input_width = input_height)) = true) :
    adjust_boxes mnn_assert L image_width image_width input_width input_height =
      some (L.map fun p =>
        ⟨p.x * ((image_width : α) / (input_width : α)),
          p.y * ((image_width : α) / (input_width : α)),
          p.width * ((image_width : α) / (input_width : α)),
          p.height * ((image_width : α) / (input_width : α)),
          p.confidence, p.class_index⟩) ∧
    (image_width = input_width → input_width ≠ 0 →
      adjust_boxes mnn_assert L image_width image_width input_width input_height = some L) := by
  have h1 : adjust_boxes mnn_assert L image_width image_width input_width input_height =
      some (L.map fun p =>
        ⟨p.x * ((image_width : α) / (input_width : α)),
          p.y * ((image_width : α) / (input_width : α)),
          p.width * ((image_width : α) / (input_width : α)),
          p.height * ((image_width : α) / (input_width : α)),
          p.confidence, p.class_index⟩) := by
    simp [adjust_boxes, hassert]
  refine ⟨h1, ?_⟩
  intro he hne
  rw [h1, he]
  have hne2 : (input_width : α) ≠ 0 := by exact_mod_cast hne
  have hone : (input_width : α) / (input_width : α) = 1 := div_self hne2
  simp [hone]

/-- C12 (as amended): for a 640x480 image and a 416x416 model input, `adjust_boxes`
uses scale `640/416`, `x_offset = 0` and `y_offset = 80`, and maps the detection with
`x = 0`, `y = 80`, `width = 416`, `height = 256` to `x = 0`, `y = 80 * 640/416 - 80 =
560/13`, `width = 640`, `height = 256 * 640/416 = 5120/13`. -/
theorem adjust_boxes_letterbox_scenario (mnn_assert : Bool → Bool) (L : List (t_prediction α))
    (conf : α) (cls : Int) (hassert : mnn_assert true = true) :
    adjust_boxes mnn_assert L 640 480 416 416 =
      some (L.map fun p =>
        ⟨p.x * (640 / 416) - 0, p.y * (640 / 416) - 80, p.width * (640 / 416),
          p.height * (640 / 416), p.confidence, p.class_index⟩) ∧
    adjust_boxes mnn_assert [⟨0, 80, 416, 256, conf, cls⟩] 640 480 416 416 =
      some [⟨0, 560 / 13, 640, 5120 / 13, conf, cls⟩] := by
  have htd : Int.tdiv 160 2 = 80 := by decide
  constructor
  · simp [adjust_boxes, hassert, htd]
  · simp only [adjust_boxes]
    simp only [decide_True, hassert]
    norm_num [htd]

end LetterboxScenarios

/-- C11 (counterexample): a square 640x640 image and a square 416x416 model input.
The detection with `x = 416`, `width = 416`, `height = 416` is mapped to `x = 640`,
`width = 640`, `height = 640`: the transform is a scaling by `640/416`, not the
identity. -/
theorem adjust_boxes_square_not_identity :
    adjust_boxes id [(⟨416, 0, 416, 416, 9/10, 0⟩ : t_prediction ℚ)] 640 640 416 416 =
      some [⟨640, 0, 640, 640, 9/10, 0⟩] ∧
    adjust_boxes id [(⟨416, 0, 416, 416, 9/10, 0⟩ : t_prediction ℚ)] 640 640 416 416 ≠
      some [⟨416, 0, 416, 416, 9/10, 0⟩] := by
  have h : adjust_boxes id [(⟨416, 0, 416, 416, 9/10, 0⟩ : t_prediction ℚ)] 640 640 416 416 =
      some [⟨640, 0, 640, 640, 9/10, 0⟩] := by
    norm_num [adjust_boxes]
  refine ⟨h, ?_⟩
  rw [h]
  norm_num

/-- Witness for C11 (as amended): a square 416x416 image and a 416x416 model input,
assertions compiled in. -/
theorem adjust_boxes_square_witness :
    id (decide ((416 : Int) = 416)) = true ∧
    (adjust_boxes id [chain_hi] 416 416 416 416 =
      some ([chain_hi].map fun p =>
        ⟨p.x * (((416 : Int) : ℚ) / ((416 : Int) : ℚ)),
          p.y * (((416 : Int) : ℚ) / ((416 : Int) : ℚ)),
          p.width * (((416 : Int) : ℚ) / ((416 : Int) : ℚ)),
          p.height * (((416 : Int) : ℚ) / ((416 : Int) : ℚ)),
          p.confidence, p.class_index⟩) ∧
    ((416 : Int) = 416 → (416 : Int) ≠ 0 →
      adjust_boxes id [chain_hi] 416 416 416 416 = some [chain_hi])) :=
  ⟨rfl, adjust_boxes_square id [chain_hi] 416 416 416 rfl⟩

/-- C12 (counterexample): the detection of the scenario is mapped to `y = 560/13`
(about 43.08), not to `y = 0`. -/
theorem adjust_boxes_letterbox_scenario_y :
    adjust_boxes id [(⟨0, 80, 416, 256, 9/10, 0⟩ : t_prediction ℚ)] 640 480 416 416 =
      some [⟨0, 560 / 13, 640, 5120 / 13, 9/10, 0⟩] ∧ (560 / 13 : ℚ) ≠ 0 := by
  have htd : Int.tdiv 160 2 = 80 := by decide
  constructor
  · norm_num [adjust_boxes, htd]
  · norm_num

/-- Witness for C12 (as amended): assertions compiled in. -/
theorem adjust_boxes_letterbox_scenario_witness :
    id true = true ∧
    (adjust_boxes id [chain_hi] 640 480 416 416 =
      some ([chain_hi].map fun p =>
        ⟨p.x * (640 / 416) - 0, p.y * (640 / 416) - 80, p.width * (640 / 416),
          p.height * (640 / 416), p.confidence, p.class_index⟩) ∧
    adjust_boxes id [(⟨0, 80, 416, 256, 9/10, 0⟩ : t_prediction ℚ)] 640 480 416 416 =
      some [⟨0, 560 / 13, 640, 5120 / 13, 9/10, 0⟩]) :=
  ⟨rfl, adjust_boxes_letterbox_scenario id [chain_hi] (9/10) 0 rfl⟩

/-! ## Letterbox padding: properties -/

section LetterboxImageProperties

variable {β : Type}

theorem radix_lt {a A b B : Nat} (ha : a < A) (hb : b < B) : a * B + b < A * B := by
  calc a * B + b < a * B + B := Nat.add_lt_add_left hb _
    _ = (a + 1) * B := by ring
    _ ≤ A * B := Nat.mul_le_mul_right B ha

theorem radix_inj {q q' c c' C : Nat} (hc : c < C) (hc' : c' < C)
    (h : q * C + c = q' * C + c') : q = q' ∧ c = c' := by
  have hq : q = q' := by
    rcases Nat.lt_trichotomy q q' with hlt | heq | hgt
    · have h1 := radix_lt hlt hc
      have h2 : q' * C ≤ q' * C + c' := Nat.le_add_right _ _
      omega
    · exact heq
    · have h1 := radix_lt hgt hc'
      have h2 : q * C ≤ q * C + c := Nat.le_add_right _ _
      omega
  subst hq
  exact ⟨rfl, by omega⟩

theorem foldl_flatMap_eq {γ δ ε : Type} (f : ε → δ → ε) (g : γ → List δ) (l : List γ) :
    ∀ b, (l.flatMap g).foldl f b = l.foldl (fun b a => (g a).foldl f b) b := by
  induction l with
  | nil => intro b; rfl
  | cons a l ih =>
    intro b
    rw [List.flatMap_cons, List.foldl_append, ih, List.foldl_cons]

/-- A sequence of writes leaves the length of the buffer unchanged. -/
theorem length_foldl_set (writes : List (Nat × β)) :
    ∀ img : List β, (writes.foldl (fun img kv => img.set kv.1 kv.2) img).length = img.length := by
  induction writes with
  | nil => intro img; rfl
  | cons kv rest ih =>
    intro img
    rw [List.foldl_cons, ih, List.length_set]

/-- After a sequence of writes in which every write at index `k` stores `v`, and which
writes at `k` at least once, the buffer holds `v` at `k`. -/
theorem getElem?_foldl_set (k : Nat) (v : β) (writes : List (Nat × β)) :
    ∀ img : List β, k < img.length → (∀ kv ∈ writes, kv.1 = k → kv.2 = v) →
      (img[k]? = some v ∨ ∃ kv ∈ writes, kv.1 = k) →
      (writes.foldl (fun img kv => img.set kv.1 kv.2) img)[k]? = some v := by
  induction writes with
  | nil =>
    intro img _ _ h
    rcases h with h | ⟨kv, hkv, _⟩
    · exact h
    · exact absurd hkv (List.not_mem_nil _)
  | cons kv rest ih =>
    intro img hk hall h
    rw [List.foldl_cons]
    have hlen : k < (img.set kv.1 kv.2).length := by rw [List.length_set]; exact hk
    have hall2 : ∀ kv2 ∈ rest, kv2.1 = k → kv2.2 = v :=
      fun kv2 h2 => hall kv2 (List.mem_cons_of_mem _ h2)
    by_cases hkey : kv.1 = k
    · have hv := hall kv (List.mem_cons_self _ _) hkey
      apply ih _ hlen hall2
      left
      rw [hkey, hv, List.getElem?_set_self hk]
    · apply ih _ hlen hall2
      rcases h with h | ⟨kv2, hkv2, hk2⟩
      · left
        rw [List.getElem?_set_ne hkey]
        exact h
      · rcases List.mem_cons.mp hkv2 with rfl | hmem
        · exact absurd hk2 hkey
        · exact Or.inr ⟨kv2, hmem, hk2⟩

/-- The three nested copy loops perform the writes of the list of all `(h, w, c)`, in
loop order. -/
theorem nested_foldl_set (dst : Nat → Nat → Nat → Nat) (val : Nat → Nat → Nat → β)
    (H W C : Nat) (img0 : List β) :
    (List.range H).foldl (fun img h =>
      (List.range W).foldl (fun img w =>
        (List.range C).foldl (fun img c => img.set (dst h w c) (val h w c)) img) img) img0 =
    ((List.range H).flatMap fun h => (List.range W).flatMap fun w =>
      (List.range C).map fun c => (dst h w c, val h w c)).foldl
      (fun img kv => img.set kv.1 kv.2) img0 := by
  rw [foldl_flatMap_eq]
  congr 1
  funext img h
  rw [foldl_flatMap_eq]
  congr 1
  funext img w
  rw [List.foldl_map]

theorem letterbox_offsets_lt {W H h w : Nat} (hh : h < H) (hw : w < W) :
    h + (letterbox_offsets W H).2 < max W H ∧ w + (letterbox_offsets W H).1 < max W H := by
  unfold letterbox_offsets
  split <;> simp only <;> omega

theorem square_index_lt {sq C xo yo h w c : Nat} (hh : h + yo < sq) (hw : w + xo < sq)
    (hc : c < C) : square_index sq C xo yo h w c < sq * sq * C := by
  have e : square_index sq C xo yo h w c = ((h + yo) * sq + (w + xo)) * C + c := by
    unfold square_index; ring
  rw [e]
  exact radix_lt (radix_lt hh hw) hc

theorem square_index_inj {sq C xo yo h w c h' w' c' : Nat} (hw : w + xo < sq)
    (hw' : w' + xo < sq) (hc : c < C) (hc' : c' < C)
    (e : square_index sq C xo yo h' w' c' = square_index sq C xo yo h w c) :
    h' = h ∧ w' = w ∧ c' = c := by
  have e1 : ∀ h w c, square_index sq C xo yo h w c = ((h + yo) * sq + (w + xo)) * C + c := by
    intro h w c; unfold square_index; ring
  rw [e1, e1] at e
  obtain ⟨hq, hcc⟩ := radix_inj hc' hc e
  obtain ⟨hhh, hww⟩ := radix_inj hw' hw hq
  exact ⟨by omega, by omega, hcc⟩

theorem input_index_lt {W H C h w c : Nat} (hh : h < H) (hw : w < W) (hc : c < C) :
    input_index W C h w c < H * W * C := by
  have e : input_index W C h w c = (h * W + w) * C + c := by
    unfold input_index; ring
  rw [e]
  exact radix_lt (radix_lt hh hw) hc

/-- C13: `letterbox_image` pads by shifted copy.  A square image is returned as it is,
with no copy.  For a non-square image whose square buffer size fits in an `int`, the
result is a fresh buffer of `square_dim * square_dim * C` bytes; for every `h < H`,
`w < W`, `c < C` the written index lies inside that buffer, the index read lies inside
the input, the padded buffer holds the input pixel there, and distinct `(h, w, c)` write
distinct indices.  The offsets are those of `adjust_boxes`. -/
theorem letterbox_image_shifted_copy [Inhabited β] (malloc : Nat → List β)
    (inputImage : List β) (W H C : Nat) (hmalloc : ∀ n, (malloc n).length = n)
    (hin : inputImage.length = H * W * C) (_hfit : max W H * max W H * C < 2 ^ 31) :
    (W = H → letterbox_image malloc inputImage W H C = .original) ∧
    (((letterbox_offsets W H).1 : Int) =
        (if (W : Int) > (H : Int) then 0 else Int.tdiv ((H : Int) - (W : Int)) 2) ∧
      ((letterbox_offsets W H).2 : Int) =
        (if (W : Int) > (H : Int) then Int.tdiv ((W : Int) - (H : Int)) 2 else 0)) ∧
    (W ≠ H → ∃ squareImage,
      letterbox_image malloc inputImage W H C = .padded squareImage ∧
      squareImage.length = max W H * max W H * C ∧
      ∀ h w c, h < H → w < W → c < C →
        square_index (max W H) C (letterbox_offsets W H).1 (letterbox_offsets W H).2 h w c
          < max W H * max W H * C ∧
        input_index W C h w c < inputImage.length ∧
        squareImage[square_index (max W H) C (letterbox_offsets W H).1
          (letterbox_offsets W H).2 h w c]? = inputImage[input_index W C h w c]? ∧
        ∀ h' w' c', h' < H → w' < W → c' < C →
          square_index (max W H) C (letterbox_offsets W H).1 (letterbox_offsets W H).2
              h' w' c' =
            square_index (max W H) C (letterbox_offsets W H).1 (letterbox_offsets W H).2
              h w c →
          h' = h ∧ w' = w ∧ c' = c) := by
  refine ⟨?_, ?_, ?_⟩
  · intro h
    simp [letterbox_image, h]
  · unfold letterbox_offsets
    by_cases hWH : W > H
    · have h1 : (W : Int) > (H : Int) := by exact_mod_cast hWH
      have h2 : (0 : Int) ≤ (W : Int) - (H : Int) := by omega
      simp only [hWH, h1, if_true, Int.tdiv_eq_ediv h2 (by decide : (0 : Int) ≤ 2)]
      constructor
      · rfl
      · omega
    · have h1 : ¬ (W : Int) > (H : Int) := by
        intro h; exact hWH (by exact_mod_cast h)
      have h2 : (0 : Int) ≤ (H : Int) - (W : Int) := by omega
      simp only [hWH, h1, if_false, Int.tdiv_eq_ediv h2 (by decide : (0 : Int) ≤ 2)]
      constructor
      · omega
      · rfl
  · intro hne
    simp only [letterbox_image, hne, if_false]
    refine ⟨_, rfl, ?_, ?_⟩
    · rw [nested_foldl_set, length_foldl_set, hmalloc]
    · intro h w c hh hw hc
      obtain ⟨hy, hx⟩ := letterbox_offsets_lt (W := W) (H := H) hh hw
      have hdst := square_index_lt (C := C) (c := c) hy hx hc
      have hsrc : input_index W C h w c < inputImage.length := by
        rw [hin]; exact input_index_lt hh hw hc
      have hinj : ∀ h' w' c', h' < H → w' < W → c' < C →
          square_index (max W H) C (letterbox_offsets W H).1 (letterbox_offsets W H).2
              h' w' c' =
            square_index (max W H) C (letterbox_offsets W H).1 (letterbox_offsets W H).2
              h w c →
          h' = h ∧ w' = w ∧ c' = c := by
        intro h' w' c' hh' hw' hc' e
        obtain ⟨_, hx'⟩ := letterbox_offsets_lt (W := W) (H := H) hh' hw'
        exact square_index_inj hx hx' hc hc' e
      refine ⟨hdst, hsrc, ?_, hinj⟩
      rw [nested_foldl_set]
      have hval : inputImage[input_index W C h w c]? =
          some (inputImage.getD (input_index W C h w c) default) := by
        rw [List.getD_eq_getElem?_getD, List.getElem?_eq_getElem hsrc]
        rfl
      rw [hval]
      apply getElem?_foldl_set
      · rw [hmalloc]; exact hdst
      · intro kv hkv hk
        simp only [List.mem_flatMap, List.mem_map, List.mem_range] at hkv
        obtain ⟨h', hh', w', hw', c', hc', rfl⟩ := hkv
        obtain ⟨e1, e2, e3⟩ := hinj h' w' c' hh' hw' hc' hk
        simp only [e1, e2, e3]
      · right
        refine ⟨(square_index (max W H) C (letterbox_offsets W H).1 (letterbox_offsets W H).2
          h w c, inputImage.getD (input_index W C h w c) default), ?_, rfl⟩
        simp only [List.mem_flatMap, List.mem_map, List.mem_range]
        exact ⟨h, hh, w, hw, c, hc, rfl⟩

end LetterboxImageProperties

/-- Witness for C13: a 3x1 image with one channel and pixels 7, 8, 9, copied into the
middle row of a zero-filled 3x3 buffer. -/
theorem letterbox_image_shifted_copy_witness :
    (∀ n, (List.replicate n (0 : Nat)).length = n) ∧
    [7, 8, 9].length = 1 * 3 * 1 ∧ max 3 1 * max 3 1 * 1 < 2 ^ 31 ∧ 3 ≠ 1 ∧
    letterbox_image (fun n => List.replicate n 0) [7, 8, 9] 3 1 1 =
      .padded [0, 0, 0, 7, 8, 9, 0, 0, 0] ∧
    ∃ squareImage,
      letterbox_image (fun n => List.replicate n 0) [7, 8, 9] 3 1 1 = .padded squareImage ∧
      squareImage.length = max 3 1 * max 3 1 * 1 ∧
      ∀ h w c, h < 1 → w < 3 → c < 1 →
        square_index (max 3 1) 1 (letterbox_offsets 3 1).1 (letterbox_offsets 3 1).2 h w c
          < max 3 1 * max 3 1 * 1 ∧
        input_index 3 1 h w c < [7, 8, 9].length ∧
        squareImage[square_index (max 3 1) 1 (letterbox_offsets 3 1).1
          (letterbox_offsets 3 1).2 h w c]? = [7, 8, 9][input_index 3 1 h w c]? ∧
        ∀ h' w' c', h' < 1 → w' < 3 → c' < 1 →
          square_index (max 3 1) 1 (letterbox_offsets 3 1).1 (letterbox_offsets 3 1).2
              h' w' c' =
            square_index (max 3 1) 1 (letterbox_offsets 3 1).1 (letterbox_offsets 3 1).2
              h w c →
          h' = h ∧ w' = w ∧ c' = c :=
  ⟨fun n => List.length_replicate n 0, rfl, by decide, by decide, rfl,
    (letterbox_image_shifted_copy (fun n => List.replicate n 0) [7, 8, 9] 3 1 1
      (fun n => List.length_replicate n 0) rfl (by decide)).2.2 (by decide)⟩

/-! ## Feature map decoder: auxiliary lemmas -/

section DecoderLemmas

variable {α : Type} [LinearOrderedField α]

theorem sigmoid_pos {exp : α → α} (hexp : ∀ x, 0 < exp x) (x : α) : 0 < sigmoid exp x := by
  unfold sigmoid
  have := hexp (-x)
  positivity

theorem sigmoid_lt_one {exp : α → α} (hexp : ∀ x, 0 < exp x) (x : α) : sigmoid exp x < 1 := by
  unfold sigmoid
  have h := hexp (-x)
  rw [div_lt_one (by linarith)]
  linarith

/-- The state of the confidence loop after the first `k` classes. -/
theorem max_conf_loop_invariant (tmp_conf : Int → α) (k : Nat) :
    let s := ((List.range k).map fun (j : Nat) => (j : Int)).foldl
      (fun s i => if tmp_conf i > s.1 then (tmp_conf i, i) else s) ((0 : α), (-1 : Int))
    0 ≤ s.1 ∧ (∀ i : Int, 0 ≤ i → i < k → tmp_conf i ≤ s.1) ∧
    (s = (0, -1) ∨
      (0 ≤ s.2 ∧ s.2 < k ∧ s.1 = tmp_conf s.2 ∧ 0 < s.1 ∧
        ∀ j : Int, 0 ≤ j → j < s.2 → tmp_conf j < s.1)) := by
  induction k with
  | zero =>
    simp only [List.range_zero, List.map_nil, List.foldl_nil]
    refine ⟨le_refl _, ?_, Or.inl trivial⟩
    intro i h0 hk
    simp at hk
    omega
  | succ k ih =>
    simp only [List.range_succ, List.map_append, List.map_cons, List.map_nil,
      List.foldl_append, List.foldl_cons, List.foldl_nil]
    simp only at ih
    generalize ((List.range k).map fun (j : Nat) => (j : Int)).foldl
      (fun s i => if tmp_conf i > s.1 then (tmp_conf i, i) else s) ((0 : α), (-1 : Int)) = s at ih
    obtain ⟨h0, hall, hcase⟩ := ih
    by_cases hgt : tmp_conf (k : Int) > s.1
    · simp only [hgt, if_true]
      refine ⟨le_of_lt (lt_of_le_of_lt h0 hgt), ?_, Or.inr ⟨?_, ?_, trivial, lt_of_le_of_lt h0 hgt, ?_⟩⟩
      · intro i hi0 hik
        by_cases hik2 : i < k
        · exact le_of_lt (lt_of_le_of_lt (hall i hi0 hik2) hgt)
        · have : i = k := by push_cast at hik; omega
          rw [this]
      · omega
      · push_cast; omega
      · intro j hj0 hjk
        exact lt_of_le_of_lt (hall j hj0 hjk) hgt
    · simp only [hgt, if_false]
      refine ⟨h0, ?_, ?_⟩
      · intro i hi0 hik
        by_cases hik2 : i < k
        · exact hall i hi0 hik2
        · have : i = k := by push_cast at hik; omega
          rw [this]
          exact not_lt.mp hgt
      · rcases hcase with h | ⟨h1, h2, h3, h4, h5⟩
        · exact Or.inl h
        · exact Or.inr ⟨h1, by push_cast; omega, h3, h4, h5⟩

/-- The result of the confidence loop: `max_conf` bounds every per-class value, and
either no class raised it above `0` (the result is `(0, -1)`), or `max_index` is the
first class that attains `max_conf`. -/
theorem max_conf_loop_spec (tmp_conf : Int → α) (n : Int) :
    0 ≤ (max_conf_loop tmp_conf n).1 ∧
    (∀ i : Int, 0 ≤ i → i < n → tmp_conf i ≤ (max_conf_loop tmp_conf n).1) ∧
    (max_conf_loop tmp_conf n = (0, -1) ∨
      (0 ≤ (max_conf_loop tmp_conf n).2 ∧ (max_conf_loop tmp_conf n).2 < n ∧
        (max_conf_loop tmp_conf n).1 = tmp_conf (max_conf_loop tmp_conf n).2 ∧
        0 < (max_conf_loop tmp_conf n).1 ∧
        ∀ j : Int, 0 ≤ j → j < (max_conf_loop tmp_conf n).2 →
          tmp_conf j < (max_conf_loop tmp_conf n).1)) := by
  have h := max_conf_loop_invariant tmp_conf n.toNat
  simp only at h
  unfold max_conf_loop class_range
  obtain ⟨h0, hall, hcase⟩ := h
  refine ⟨h0, ?_, ?_⟩
  · intro i hi0 hin
    exact hall i hi0 (by omega)
  · rcases hcase with h | ⟨h1, h2, h3, h4, h5⟩
    · exact Or.inl h
    · exact Or.inr ⟨h1, by omega, h3, h4, h5⟩

theorem foldl_add_eq_sum (l : List α) : ∀ a : α, l.foldl (fun acc v => acc + v) a = a + l.sum := by
  induction l with
  | nil => intro a; simp
  | cons x xs ih =>
    intro a
    rw [List.foldl_cons, ih, List.sum_cons, add_assoc]

theorem getD_map_class_range (f : Int → α) (n i : Int) (h0 : 0 ≤ i) (hn : i < n) :
    ((class_range n).map f).getD i.toNat 0 = f i := by
  unfold class_range
  have hlt : i.toNat < n.toNat := by omega
  rw [List.getD_eq_getElem?_getD, List.map_map, List.getElem?_map, List.getElem?_range hlt]
  simp only [Option.map_some', Option.getD_some, Function.comp_apply]
  congr 1
  omega

/-- The per-class value of the code is the per-class confidence of the reference
definition. -/
theorem class_conf_eq_reference (exp : α → α) (bytes : Int → α) (o : BBoxOffsets)
    (anchor_num num_classes i : Int) (h0 : 0 ≤ i) (hn : i < num_classes) :
    class_conf exp bytes o anchor_num num_classes (sigmoid exp (bytes o.bbox_obj_offset)) i =
      per_class_confidence exp
        (fun j => bytes (o.bbox_scores_offset + j * o.bbox_scores_step))
        (bytes o.bbox_obj_offset) anchor_num num_classes i := by
  unfold class_conf per_class_confidence
  by_cases h5 : anchor_num = 5
  · simp only [h5, if_true, softmax, List.map_map]
    rw [getD_map_class_range _ num_classes i h0 hn, foldl_add_eq_sum, zero_add]
    rfl
  · simp only [h5, if_false]

theorem per_class_confidence_le_one {exp : α → α} (hexp : ∀ x, 0 < exp x)
    (class_logit : Int → α) (raw_obj : α) (anchor_count num_classes i : Int)
    (h0 : 0 ≤ i) (hn : i < num_classes) :
    per_class_confidence exp class_logit raw_obj anchor_count num_classes i ≤ 1 := by
  unfold per_class_confidence
  have hs := sigmoid_pos hexp raw_obj
  have hs1 := sigmoid_lt_one hexp raw_obj
  split
  · have hmem : exp (class_logit i) ∈ (class_range num_classes).map fun j => exp (class_logit j) :=
      List.mem_map.mpr ⟨i, mem_class_range.mpr ⟨h0, hn⟩, rfl⟩
    have hnonneg : ∀ x ∈ (class_range num_classes).map fun j => exp (class_logit j), 0 ≤ x := by
      intro x hx
      obtain ⟨j, _, rfl⟩ := List.mem_map.mp hx
      exact le_of_lt (hexp _)
    have hle := List.single_le_sum hnonneg _ hmem
    have hsum : 0 < ((class_range num_classes).map fun j => exp (class_logit j)).sum :=
      lt_of_lt_of_le (hexp _) hle
    have hq : exp (class_logit i) /
        ((class_range num_classes).map fun j => exp (class_logit j)).sum ≤ 1 :=
      (div_le_one hsum).mpr hle
    have hq0 : 0 ≤ exp (class_logit i) /
        ((class_range num_classes).map fun j => exp (class_logit j)).sum :=
      le_of_lt (div_pos (hexp _) hsum)
    calc _ ≤ 1 * sigmoid exp raw_obj := mul_le_mul_of_nonneg_right hq (le_of_lt hs)
      _ ≤ 1 := by linarith
  · have h1 := sigmoid_pos hexp (class_logit i)
    have h2 := sigmoid_lt_one hexp (class_logit i)
    nlinarith

/-- What `yolo_cell` pushes: the box and the result of the confidence loop, when the
latter reaches the threshold. -/
theorem yolo_cell_eq_some (exp : α → α) (bytes : Int → α) (layout : FeatureMapLayout)
    (channel height width stride num_classes : Int) (anchors : List (α × α))
    (conf_threshold : α) (h w anc : Int) (p : t_prediction α)
    (hp : yolo_cell exp bytes layout channel height width stride num_classes anchors
      conf_threshold h w anc = some p) :
    conf_threshold ≤ p.confidence ∧
    (p.confidence, p.class_index) =
      max_conf_loop (class_conf exp bytes
        (bbox_offsets layout channel height width num_classes h w anc) anchors.length
        num_classes
        (sigmoid exp (bytes
          (bbox_offsets layout channel height width num_classes h w anc).bbox_obj_offset)))
        num_classes ∧
    p.width = exp (bytes
        (bbox_offsets layout channel height width num_classes h w anc).bbox_w_offset) *
      (anchors.getD anc.toNat (0, 0)).1 / (stride : α) * (stride : α) ∧
    p.height = exp (bytes
        (bbox_offsets layout channel height width num_classes h w anc).bbox_h_offset) *
      (anchors.getD anc.toNat (0, 0)).2 / (stride : α) * (stride : α) ∧
    p.x = (sigmoid exp (bytes
        (bbox_offsets layout channel height width num_classes h w anc).bbox_x_offset) +
      (w : α)) * (stride : α) - p.width / 2 ∧
    p.y = (sigmoid exp (bytes
        (bbox_offsets layout channel height width num_classes h w anc).bbox_y_offset) +
      (h : α)) * (stride : α) - p.height / 2 := by
  simp only [yolo_cell] at hp
  split_ifs at hp with hthr
  cases hp
  exact ⟨hthr, rfl, rfl, rfl, rfl, rfl⟩

/-- What a completed run of `yolo_postprocess` returns: both assertions passed, the
layout is one of the two supported ones, and the result is the old list followed by
the predictions of the loops. -/
theorem yolo_postprocess_eq_some (mnn_assert : Bool → Bool) (exp : α → α)
    (feature_map : Tensor α) (input_width input_height num_classes : Int)
    (anchors : List (α × α)) (prediction_list out : List (t_prediction α))
    (conf_threshold : α)
    (h : yolo_postprocess mnn_assert exp feature_map input_width input_height num_classes
      anchors prediction_list conf_threshold = some out) :
    mnn_assert (decide (feature_map.batch = 1)) = true ∧
    mnn_assert (decide ((anchors.length : Int) * (num_classes + 5) = feature_map.channel))
      = true ∧
    ∃ layout, supported_layout feature_map.dimType = some layout ∧
      out = prediction_list ++
        decode_loops exp feature_map layout (Int.tdiv input_width feature_map.width)
          num_classes anchors conf_threshold := by
  simp only [yolo_postprocess] at h
  split_ifs at h with h1 h2
  have e1 : mnn_assert (decide (feature_map.batch = 1)) = true := by
    cases hb : mnn_assert (decide (feature_map.batch = 1))
    · exact absurd hb h1
    · rfl
  have e2 : mnn_assert (decide ((anchors.length : Int) * (num_classes + 5) = feature_map.channel))
      = true := by
    cases hb : mnn_assert (decide ((anchors.length : Int) * (num_classes + 5)
      = feature_map.channel))
    · exact absurd hb h2
    · rfl
  refine ⟨e1, e2, ?_⟩
  cases hl : supported_layout feature_map.dimType with
  | none => rw [hl] at h; exact absurd h (by simp)
  | some layout =>
    rw [hl] at h
    exact ⟨layout, rfl, (Option.some.inj h).symm⟩

/-- Every prediction of the loops is the prediction of one cell `(b, h, w, anc)`. -/
theorem mem_decode_loops (exp : α → α) (feature_map : Tensor α) (layout : FeatureMapLayout)
    (stride num_classes : Int) (anchors : List (α × α)) (conf_threshold : α)
    (p : t_prediction α)
    (hp : p ∈ decode_loops exp feature_map layout stride num_classes anchors conf_threshold) :
    ∃ b h w anc : Int,
      (0 ≤ b ∧ b < feature_map.batch) ∧ (0 ≤ h ∧ h < feature_map.height) ∧
      (0 ≤ w ∧ w < feature_map.width) ∧ (0 ≤ anc ∧ anc < (anchors.length : Int)) ∧
      yolo_cell exp (batch_bytes feature_map layout b)
        layout feature_map.channel feature_map.height feature_map.width stride num_classes
        anchors conf_threshold h w anc = some p := by
  simp only [decode_loops, List.mem_flatMap, List.mem_filterMap, mem_class_range] at hp
  obtain ⟨b, hb, h, hh, w, hw, anc, hanc, hcell⟩ := hp
  exact ⟨b, h, w, anc, hb, hh, hw, hanc, hcell⟩

theorem filterMap_flatMap {γ δ ε : Type} (g : δ → Option ε) (f : γ → List δ) (l : List γ) :
    (l.flatMap f).filterMap g = l.flatMap fun a => (f a).filterMap g := by
  induction l with
  | nil => rfl
  | cons a l ih => simp [List.flatMap_cons, List.filterMap_append, ih]

theorem length_flatMap_const {γ δ : Type} (f : γ → List δ) (c : Nat) (l : List γ)
    (h : ∀ a, (f a).length = c) : (l.flatMap f).length = l.length * c := by
  induction l with
  | nil => simp
  | cons a l ih =>
    rw [List.flatMap_cons, List.length_append, ih, h, List.length_cons]
    ring

theorem length_class_range (n : Int) : (class_range n).length = n.toNat := by
  simp [class_range]

theorem length_grid_cells (height width anchor_num : Int) :
    (grid_cells height width anchor_num).length =
      height.toNat * width.toNat * anchor_num.toNat := by
  unfold grid_cells
  rw [length_flatMap_const _ (width.toNat * anchor_num.toNat), length_class_range]
  · ring
  · intro h
    rw [length_flatMap_const _ anchor_num.toNat, length_class_range]
    intro w
    rw [List.length_map, length_class_range]

/-- With a single image, the loops push the predictions of the cells of the grid, in
grid order. -/
theorem decode_loops_eq_grid (exp : α → α) (feature_map : Tensor α)
    (layout : FeatureMapLayout) (stride num_classes : Int) (anchors : List (α × α))
    (conf_threshold : α) (hb : feature_map.batch = 1) :
    decode_loops exp feature_map layout stride num_classes anchors conf_threshold =
      (grid_cells feature_map.height feature_map.width (anchors.length : Int)).filterMap
        fun c => yolo_cell exp feature_map.host layout feature_map.channel feature_map.height
          feature_map.width stride num_classes anchors conf_threshold c.1 c.2.1 c.2.2 := by
  have hbytes : batch_bytes feature_map layout 0 = feature_map.host := by
    funext i
    simp [batch_bytes]
  simp only [decode_loops, hb, class_range_one, List.flatMap_cons, List.flatMap_nil,
    List.append_nil, hbytes, grid_cells, filterMap_flatMap, List.filterMap_map]
  rfl

theorem pairwise_class_range (n : Int) : (class_range n).Pairwise (fun a b => a < b) := by
  unfold class_range
  rw [List.pairwise_map]
  refine (List.pairwise_lt_range n.toNat).imp ?_
  intro a b hab
  exact_mod_cast hab

/-- The cells of the grid are listed row by row, then column by column, then anchor
by anchor. -/
theorem pairwise_grid_cells (height width anchor_num : Int) :
    (grid_cells height width anchor_num).Pairwise (fun a b =>
      a.1 < b.1 ∨ (a.1 = b.1 ∧ (a.2.1 < b.2.1 ∨ (a.2.1 = b.2.1 ∧ a.2.2 < b.2.2)))) := by
  unfold grid_cells
  rw [List.pairwise_flatMap]
  constructor
  · intro h _
    rw [List.pairwise_flatMap]
    constructor
    · intro w _
      rw [List.pairwise_map]
      refine (pairwise_class_range anchor_num).imp ?_
      intro a b hab
      exact Or.inr ⟨rfl, Or.inr ⟨rfl, hab⟩⟩
    · refine (pairwise_class_range width).imp ?_
      intro w1 w2 hw x hx y hy
      obtain ⟨a1, _, rfl⟩ := List.mem_map.mp hx
      obtain ⟨a2, _, rfl⟩ := List.mem_map.mp hy
      exact Or.inr ⟨rfl, Or.inl hw⟩
  · refine (pairwise_class_range height).imp ?_
    intro h1 h2 hh x hx y hy
    simp only [List.mem_flatMap, List.mem_map] at hx hy
    obtain ⟨w1, _, a1, _, rfl⟩ := hx
    obtain ⟨w2, _, a2, _, rfl⟩ := hy
    exact Or.inl hh

end DecoderLemmas

/-! ## Feature map decoder: properties -/

section DecoderProperties

variable {α : Type} [LinearOrderedField α]

/-- C15 (as amended): when the confidence threshold is positive, every prediction
appended by a completed run of `yolo_postprocess` has a class index in
`[0, num_classes)`: a prediction that reaches a positive threshold has `max_conf > 0`,
so some iteration of the confidence loop assigned `max_index`. -/
theorem yolo_postprocess_class_index (mnn_assert : Bool → Bool) (exp : α → α)
    (feature_map : Tensor α) (input_width input_height num_classes : Int)
    (anchors : List (α × α)) (prediction_list out : List (t_prediction α))
    (conf_threshold : α)
    (hpos : 0 < conf_threshold)
    (hout : yolo_postprocess mnn_assert exp feature_map input_width input_height num_classes
      anchors prediction_list conf_threshold = some out) :
    ∃ new, out = prediction_list ++ new ∧
      ∀ p ∈ new, 0 ≤ p.class_index ∧ p.class_index < num_classes := by
  obtain ⟨_, _, layout, _, rfl⟩ := yolo_postprocess_eq_some _ _ _ _ _ _ _ _ _ _ hout
  refine ⟨_, rfl, ?_⟩
  intro p hp
  obtain ⟨b, h, w, anc, _, _, _, _, hcell⟩ := mem_decode_loops _ _ _ _ _ _ _ _ hp
  obtain ⟨hthr, hm, _⟩ := yolo_cell_eq_some _ _ _ _ _ _ _ _ _ _ _ _ _ _ hcell
  obtain ⟨_, _, hcase⟩ := max_conf_loop_spec (class_conf exp
    (batch_bytes feature_map layout b)
    (bbox_offsets layout feature_map.channel feature_map.height feature_map.width
      num_classes h w anc) anchors.length num_classes
    (sigmoid exp (batch_bytes feature_map layout b
      (bbox_offsets layout feature_map.channel feature_map.height feature_map.width
        num_classes h w anc).bbox_obj_offset))) num_classes
  rw [← hm] at hcase
  rcases hcase with h0 | ⟨h1, h2, _⟩
  · have hc0 : p.confidence = 0 := congrArg Prod.fst h0
    rw [hc0] at hthr
    exact absurd hpos (not_lt.mpr hthr)
  · exact ⟨h1, h2⟩

/-- C17: box geometry.  With `stride = input_width / width` (integer division) at
least 1 and a positive exponential, every prediction appended by a completed run comes
from a cell `(h, w)` and an anchor `anc` of some image `b`, and has
`width = exp(raw_w) * anchor_width`, `height = exp(raw_h) * anchor_height`,
`x = (sigmoid(raw_x) + w) * stride - width / 2`,
`y = (sigmoid(raw_y) + h) * stride - height / 2`; its centre lies strictly inside the
pixel area `(w * stride, (w + 1) * stride) x (h * stride, (h + 1) * stride)` of the
cell. -/
theorem yolo_postprocess_geometry (mnn_assert : Bool → Bool) (exp : α → α)
    (feature_map : Tensor α) (input_width input_height num_classes : Int)
    (anchors : List (α × α)) (prediction_list out : List (t_prediction α))
    (conf_threshold : α) (hexp : ∀ x, 0 < exp x)
    (hstride : 1 ≤ Int.tdiv input_width feature_map.width)
    (hout : yolo_postprocess mnn_assert exp feature_map input_width input_height num_classes
      anchors prediction_list conf_threshold = some out) :
    ∃ layout new, supported_layout feature_map.dimType = some layout ∧
      out = prediction_list ++ new ∧
      ∀ p ∈ new, ∃ b h w anc : Int,
        (0 ≤ b ∧ b < feature_map.batch) ∧ (0 ≤ h ∧ h < feature_map.height) ∧
        (0 ≤ w ∧ w < feature_map.width) ∧ (0 ≤ anc ∧ anc < (anchors.length : Int)) ∧
        p.width = exp (batch_bytes feature_map layout b
            (bbox_offsets layout feature_map.channel feature_map.height feature_map.width
              num_classes h w anc).bbox_w_offset) * (anchors.getD anc.toNat (0, 0)).1 ∧
        p.height = exp (batch_bytes feature_map layout b
            (bbox_offsets layout feature_map.channel feature_map.height feature_map.width
              num_classes h w anc).bbox_h_offset) * (anchors.getD anc.toNat (0, 0)).2 ∧
        p.x = (sigmoid exp (batch_bytes feature_map layout b
            (bbox_offsets layout feature_map.channel feature_map.height feature_map.width
              num_classes h w anc).bbox_x_offset) + (w : α)) *
            ((Int.tdiv input_width feature_map.width : Int) : α) - p.width / 2 ∧
        p.y = (sigmoid exp (batch_bytes feature_map layout b
            (bbox_offsets layout feature_map.channel feature_map.height feature_map.width
              num_classes h w anc).bbox_y_offset) + (h : α)) *
            ((Int.tdiv input_width feature_map.width : Int) : α) - p.height / 2 ∧
        ((w : α) * ((Int.tdiv input_width feature_map.width : Int) : α) < p.x + p.width / 2 ∧
          p.x + p.width / 2 <
            ((w : α) + 1) * ((Int.tdiv input_width feature_map.width : Int) : α)) ∧
        ((h : α) * ((Int.tdiv input_width feature_map.width : Int) : α) < p.y + p.height / 2 ∧
          p.y + p.height / 2 <
            ((h : α) + 1) * ((Int.tdiv input_width feature_map.width : Int) : α)) := by
  obtain ⟨_, _, layout, hl, rfl⟩ := yolo_postprocess_eq_some _ _ _ _ _ _ _ _ _ _ hout
  refine ⟨layout, _, hl, rfl, ?_⟩
  intro p hp
  obtain ⟨b, h, w, anc, hb, hh, hw, hanc, hcell⟩ := mem_decode_loops _ _ _ _ _ _ _ _ hp
  obtain ⟨_, _, hwidth, hheight, hx, hy⟩ := yolo_cell_eq_some _ _ _ _ _ _ _ _ _ _ _ _ _ _ hcell
  have hs1 : (1 : α) ≤ ((Int.tdiv input_width feature_map.width : Int) : α) := by
    exact_mod_cast hstride
  have hs0 : (0 : α) < ((Int.tdiv input_width feature_map.width : Int) : α) := by linarith
  rw [div_mul_cancel₀ _ (ne_of_gt hs0)] at hwidth hheight
  have hsx := sigmoid_pos hexp (batch_bytes feature_map layout b
    (bbox_offsets layout feature_map.channel feature_map.height feature_map.width
      num_classes h w anc).bbox_x_offset)
  have hsx1 := sigmoid_lt_one hexp (batch_bytes feature_map layout b
    (bbox_offsets layout feature_map.channel feature_map.height feature_map.width
      num_classes h w anc).bbox_x_offset)
  have hsy := sigmoid_pos hexp (batch_bytes feature_map layout b
    (bbox_offsets layout feature_map.channel feature_map.height feature_map.width
      num_classes h w anc).bbox_y_offset)
  have hsy1 := sigmoid_lt_one hexp (batch_bytes feature_map layout b
    (bbox_offsets layout feature_map.channel feature_map.height feature_map.width
      num_classes h w anc).bbox_y_offset)
  refine ⟨b, h, w, anc, hb, hh, hw, hanc, hwidth, hheight, hx, hy, ⟨?_, ?_⟩, ⟨?_, ?_⟩⟩
  · rw [hx]; nlinarith
  · rw [hx]; nlinarith
  · rw [hy]; nlinarith
  · rw [hy]; nlinarith

/-- C19: with a positive exponential, every prediction appended by a completed run of
`yolo_postprocess` has a confidence in `[0, 1]`, under both class-score policies. -/
theorem yolo_postprocess_confidence_range (mnn_assert : Bool → Bool) (exp : α → α)
    (feature_map : Tensor α) (input_width input_height num_classes : Int)
    (anchors : List (α × α)) (prediction_list out : List (t_prediction α))
    (conf_threshold : α) (hexp : ∀ x, 0 < exp x)
    (hout : yolo_postprocess mnn_assert exp feature_map input_width input_height num_classes
      anchors prediction_list conf_threshold = some out) :
    ∃ new, out = prediction_list ++ new ∧
      ∀ p ∈ new, 0 ≤ p.confidence ∧ p.confidence ≤ 1 := by
  obtain ⟨_, _, layout, _, rfl⟩ := yolo_postprocess_eq_some _ _ _ _ _ _ _ _ _ _ hout
  refine ⟨_, rfl, ?_⟩
  intro p hp
  obtain ⟨b, h, w, anc, _, _, _, _, hcell⟩ := mem_decode_loops _ _ _ _ _ _ _ _ hp
  obtain ⟨_, hm, _⟩ := yolo_cell_eq_some _ _ _ _ _ _ _ _ _ _ _ _ _ _ hcell
  obtain ⟨h0, _, hcase⟩ := max_conf_loop_spec (class_conf exp
    (batch_bytes feature_map layout b)
    (bbox_offsets layout feature_map.channel feature_map.height feature_map.width
      num_classes h w anc) anchors.length num_classes
    (sigmoid exp (batch_bytes feature_map layout b
      (bbox_offsets layout feature_map.channel feature_map.height feature_map.width
        num_classes h w anc).bbox_obj_offset))) num_classes
  rw [← hm] at h0 hcase
  refine ⟨h0, ?_⟩
  rcases hcase with hz | ⟨h1, h2, h3, _⟩
  · have hc0 : p.confidence = 0 := congrArg Prod.fst hz
    rw [hc0]
    exact zero_le_one
  · simp only at h1 h2 h3
    rw [h3, class_conf_eq_reference exp _ _ _ _ _ h1 h2]
    exact per_class_confidence_le_one hexp _ _ _ _ _ h1 h2

/-- C20: `yolo_postprocess` only appends.  For a single image (which the first
assertion enforces when it aborts on a false condition), the list after a completed
run is the list before it followed by the predictions of the cells of the grid, in grid
order (row `h`, then column `w`, then anchor), at most `height * width * anchors` of
them. -/
theorem yolo_postprocess_appends (mnn_assert : Bool → Bool) (exp : α → α)
    (feature_map : Tensor α) (input_width input_height num_classes : Int)
    (anchors : List (α × α)) (prediction_list out : List (t_prediction α))
    (conf_threshold : α)
    (hbatch : feature_map.batch = 1 ∨ ∀ c, mnn_assert c = c)
    (hout : yolo_postprocess mnn_assert exp feature_map input_width input_height num_classes
      anchors prediction_list conf_threshold = some out) :
    ∃ layout new, supported_layout feature_map.dimType = some layout ∧
      out = prediction_list ++ new ∧
      new.length ≤ feature_map.height.toNat * feature_map.width.toNat * anchors.length ∧
      new = (grid_cells feature_map.height feature_map.width (anchors.length : Int)).filterMap
        (fun c => yolo_cell exp feature_map.host layout feature_map.channel
          feature_map.height feature_map.width (Int.tdiv input_width feature_map.width)
          num_classes anchors conf_threshold c.1 c.2.1 c.2.2) ∧
      (grid_cells feature_map.height feature_map.width (anchors.length : Int)).Pairwise
        (fun a b =>
          a.1 < b.1 ∨ (a.1 = b.1 ∧ (a.2.1 < b.2.1 ∨ (a.2.1 = b.2.1 ∧ a.2.2 < b.2.2)))) := by
  obtain ⟨ha, _, layout, hl, rfl⟩ := yolo_postprocess_eq_some _ _ _ _ _ _ _ _ _ _ hout
  have hb : feature_map.batch = 1 := by
    rcases hbatch with hb | hassert
    · exact hb
    · rw [hassert] at ha
      exact of_decide_eq_true ha
  have hgrid := decode_loops_eq_grid exp feature_map layout
    (Int.tdiv input_width feature_map.width) num_classes anchors conf_threshold hb
  refine ⟨layout, _, hl, rfl, ?_, hgrid, pairwise_grid_cells _ _ _⟩
  rw [hgrid]
  have h1 := List.length_filterMap_le
    (fun c : Int × Int × Int => yolo_cell exp feature_map.host layout feature_map.channel
      feature_map.height feature_map.width (Int.tdiv input_width feature_map.width)
      num_classes anchors conf_threshold c.1 c.2.1 c.2.2)
    (grid_cells feature_map.height feature_map.width (anchors.length : Int))
  rw [length_grid_cells] at h1
  simpa using h1

end DecoderProperties

/-! ### Concrete runs of the decoder -/

theorem class_range_zero : class_range 0 = [] := by
  decide

/-- One class, one anchor, a 1x1 channel-minor feature map of zeros and a 416x416
model input: one prediction, of confidence `sigmoid 0 * sigmoid 0 = 1/4`. -/
theorem yolo_postprocess_zero_map :
    yolo_postprocess id Real.exp zero_map 416 416 1 one_anchor [] (1 / 10) =
      some [⟨203, 403 / 2, 10, 13, 1 / 4, 0⟩] := by
  have htd : Int.tdiv 416 1 = 416 := by decide
  simp only [yolo_postprocess, decode_loops, supported_layout, class_range_one, zero_map,
    one_anchor]
  norm_num [htd, yolo_cell, max_conf_loop, class_conf, sigmoid, bbox_offsets, class_range_one,
    batch_bytes]
  simp only [List.filterMap_cons, List.filterMap_nil, Int.toNat_zero, List.getElem?_cons_zero,
    Option.getD_some]
  norm_num

/-- C15 (counterexample): no class, threshold `0`, one anchor, a 1x1 feature map of
zeros with 5 channels.  Both shape assertions hold (`1 * (0 + 5) = 5`), the confidence
loop runs no iteration, `max_conf = 0` reaches the threshold, and the prediction pushed
has the class index `-1`. -/
theorem yolo_postprocess_sentinel_class :
    yolo_postprocess id Real.exp zero_map_no_class 416 416 0 one_anchor [] 0 =
      some [⟨203, 403 / 2, 10, 13, 0, -1⟩] ∧ ¬ (0 ≤ (-1 : Int)) := by
  have htd : Int.tdiv 416 1 = 416 := by decide
  refine ⟨?_, by decide⟩
  simp only [yolo_postprocess, decode_loops, supported_layout, class_range_one,
    zero_map_no_class, one_anchor]
  norm_num [htd, yolo_cell, max_conf_loop, class_conf, sigmoid, bbox_offsets, class_range_one,
    class_range_zero, batch_bytes]
  simp only [List.filterMap_cons, List.filterMap_nil, Int.toNat_zero, List.getElem?_cons_zero,
    Option.getD_some]
  norm_num

/-- C18 (code bug): a malformed shape is decoded when `MNN_ASSERT` expands to nothing.
The feature map `malformed_map` has 7 channels while one anchor and one class require
`1 * (1 + 5) = 6`; its layout tag `TENSORFLOW` is supported.  The only shape checks of
`yolo_postprocess` are its two `MNN_ASSERT` statements: with an `MNN_ASSERT` that
aborts on a false condition the run aborts, with an `MNN_ASSERT` that expands to
nothing the run completes and pushes a prediction read from the malformed map. -/
theorem yolo_postprocess_malformed_shape :
    malformed_map.batch = 1 ∧
    malformed_map.channel ≠ (one_anchor.length : Int) * (1 + 5) ∧
    malformed_map.dimType = .TENSORFLOW ∧
    yolo_postprocess id Real.exp malformed_map 416 416 1 one_anchor [] (1 / 10) = none ∧
    yolo_postprocess (fun _ => true) Real.exp malformed_map 416 416 1 one_anchor []
        (1 / 10) =
      some [⟨203, 403 / 2, 10, 13, 1 / 4, 0⟩] := by
  have htd : Int.tdiv 416 1 = 416 := by decide
  refine ⟨rfl, by decide, rfl, ?_, ?_⟩
  · simp [yolo_postprocess, malformed_map, one_anchor]
  · simp only [yolo_postprocess, decode_loops, supported_layout, class_range_one,
      malformed_map, one_anchor]
    norm_num [htd, yolo_cell, max_conf_loop, class_conf, sigmoid, bbox_offsets,
      class_range_one, batch_bytes]
    simp only [List.filterMap_cons, List.filterMap_nil, Int.toNat_zero,
      List.getElem?_cons_zero, Option.getD_some]
    norm_num

/-- Witness for C15 (as amended): threshold `0.1`, the feature map `zero_map`. -/
theorem yolo_postprocess_class_index_witness :
    (0 : ℝ) < 1 / 10 ∧
    yolo_postprocess id Real.exp zero_map 416 416 1 one_anchor [] (1 / 10) =
      some [⟨203, 403 / 2, 10, 13, 1 / 4, 0⟩] ∧
    ∃ new, [(⟨203, 403 / 2, 10, 13, 1 / 4, 0⟩ : t_prediction ℝ)] = [] ++ new ∧
      ∀ p ∈ new, 0 ≤ p.class_index ∧ p.class_index < 1 :=
  ⟨by norm_num, yolo_postprocess_zero_map,
    yolo_postprocess_class_index id Real.exp zero_map 416 416 1 one_anchor [] _ (1 / 10)
      (by norm_num) yolo_postprocess_zero_map⟩

/-- Witness for C17: the feature map `zero_map`, stride `416 / 1 = 416`. -/
theorem yolo_postprocess_geometry_witness :
    (∀ x, 0 < Real.exp x) ∧ 1 ≤ Int.tdiv 416 zero_map.width ∧
    yolo_postprocess id Real.exp zero_map 416 416 1 one_anchor [] (1 / 10) =
      some [⟨203, 403 / 2, 10, 13, 1 / 4, 0⟩] ∧
    ∃ layout new, supported_layout zero_map.dimType = some layout ∧
      [(⟨203, 403 / 2, 10, 13, 1 / 4, 0⟩ : t_prediction ℝ)] = [] ++ new ∧
      ∀ p ∈ new, ∃ b h w anc : Int,
        (0 ≤ b ∧ b < zero_map.batch) ∧ (0 ≤ h ∧ h < zero_map.height) ∧
        (0 ≤ w ∧ w < zero_map.width) ∧ (0 ≤ anc ∧ anc < (one_anchor.length : Int)) ∧
        p.width = Real.exp (batch_bytes zero_map layout b
            (bbox_offsets layout zero_map.channel zero_map.height zero_map.width
              1 h w anc).bbox_w_offset) * (one_anchor.getD anc.toNat (0, 0)).1 ∧
        p.height = Real.exp (batch_bytes zero_map layout b
            (bbox_offsets layout zero_map.channel zero_map.height zero_map.width
              1 h w anc).bbox_h_offset) * (one_anchor.getD anc.toNat (0, 0)).2 ∧
        p.x = (sigmoid Real.exp (batch_bytes zero_map layout b
            (bbox_offsets layout zero_map.channel zero_map.height zero_map.width
              1 h w anc).bbox_x_offset) + (w : ℝ)) *
            ((Int.tdiv 416 zero_map.width : Int) : ℝ) - p.width / 2 ∧
        p.y = (sigmoid Real.exp (batch_bytes zero_map layout b
            (bbox_offsets layout zero_map.channel zero_map.height zero_map.width
              1 h w anc).bbox_y_offset) + (h : ℝ)) *
            ((Int.tdiv 416 zero_map.width : Int) : ℝ) - p.height / 2 ∧
        ((w : ℝ) * ((Int.tdiv 416 zero_map.width : Int) : ℝ) < p.x + p.width / 2 ∧
          p.x + p.width / 2 < ((w : ℝ) + 1) * ((Int.tdiv 416 zero_map.width : Int) : ℝ)) ∧
        ((h : ℝ) * ((Int.tdiv 416 zero_map.width : Int) : ℝ) < p.y + p.height / 2 ∧
          p.y + p.height / 2 < ((h : ℝ) + 1) * ((Int.tdiv 416 zero_map.width : Int) : ℝ)) :=
  ⟨Real.exp_pos, by decide, yolo_postprocess_zero_map,
    yolo_postprocess_geometry id Real.exp zero_map 416 416 1 one_anchor [] _ (1 / 10)
      Real.exp_pos (by decide) yolo_postprocess_zero_map⟩

/-- Witness for C19: the feature map `zero_map`; the confidence is `1/4`. -/
theorem yolo_postprocess_confidence_range_witness :
    (∀ x, 0 < Real.exp x) ∧
    yolo_postprocess id Real.exp zero_map 416 416 1 one_anchor [] (1 / 10) =
      some [⟨203, 403 / 2, 10, 13, 1 / 4, 0⟩] ∧
    ∃ new, [(⟨203, 403 / 2, 10, 13, 1 / 4, 0⟩ : t_prediction ℝ)] = [] ++ new ∧
      ∀ p ∈ new, 0 ≤ p.confidence ∧ p.confidence ≤ 1 :=
  ⟨Real.exp_pos, yolo_postprocess_zero_map,
    yolo_postprocess_confidence_range id Real.exp zero_map 416 416 1 one_anchor [] _ (1 / 10)
      Real.exp_pos yolo_postprocess_zero_map⟩

/-- Witness for C20: the single-image feature map `zero_map`. -/
theorem yolo_postprocess_appends_witness :
    (zero_map.batch = 1 ∨ ∀ c : Bool, id c = c) ∧
    yolo_postprocess id Real.exp zero_map 416 416 1 one_anchor [] (1 / 10) =
      some [⟨203, 403 / 2, 10, 13, 1 / 4, 0⟩] ∧
    ∃ layout new, supported_layout zero_map.dimType = some layout ∧
      [(⟨203, 403 / 2, 10, 13, 1 / 4, 0⟩ : t_prediction ℝ)] = [] ++ new ∧
      new.length ≤ zero_map.height.toNat * zero_map.width.toNat * one_anchor.length ∧
      new = (grid_cells zero_map.height zero_map.width (one_anchor.length : Int)).filterMap
        (fun c => yolo_cell Real.exp zero_map.host layout zero_map.channel
          zero_map.height zero_map.width (Int.tdiv 416 zero_map.width)
          1 one_anchor (1 / 10) c.1 c.2.1 c.2.2) ∧
      (grid_cells zero_map.height zero_map.width (one_anchor.length : Int)).Pairwise
        (fun a b =>
          a.1 < b.1 ∨ (a.1 = b.1 ∧ (a.2.1 < b.2.1 ∨ (a.2.1 = b.2.1 ∧ a.2.2 < b.2.2)))) :=
  ⟨Or.inl rfl, yolo_postprocess_zero_map,
    yolo_postprocess_appends id Real.exp zero_map 416 416 1 one_anchor [] _ (1 / 10)
      (Or.inl rfl) yolo_postprocess_zero_map⟩

/-! ## Non-max suppression: order of the output, best detection, idempotence -/

section NMSOrder

variable {α : Type} [LinearOrderedField α]

/-- The picks of a list sorted in ascending confidence come in descending
confidence. -/
theorem nms_pick_descending (thr : α) (l : List (t_prediction α))
    (hl : l.Pairwise (fun a b => compare_conf b a = false)) :
    (nms_pick thr l).Pairwise (fun a b => b.confidence ≤ a.confidence) := by
  have h1 := List.Pairwise.sublist (nms_pick_reverse_sublist thr l) hl
  rw [List.pairwise_reverse] at h1
  refine h1.imp ?_
  intro a b hab
  simp only [compare_conf] at hab
  by_cases hlt : a.confidence < b.confidence
  · simp [hlt] at hab
  · exact not_lt.mp hlt

/-- The first pick of a non-empty list sorted in ascending confidence has the largest
confidence of the list. -/
theorem nms_pick_best (thr : α) (l : List (t_prediction α)) (hne : l ≠ [])
    (hl : l.Pairwise (fun a b => compare_conf b a = false)) :
    ∃ q ∈ nms_pick thr l, ∀ p ∈ l, p.confidence ≤ q.confidence := by
  rcases List.eq_nil_or_concat l with rfl | ⟨l0, c, rfl⟩
  · exact absurd rfl hne
  · rw [List.concat_eq_append] at hl ⊢
    rw [nms_pick_concat]
    refine ⟨c, List.mem_cons_self _ _, ?_⟩
    intro p hp
    rw [List.pairwise_append] at hl
    rcases List.mem_append.mp hp with h | h
    · have := hl.2.2 p h c (List.mem_singleton_self c)
      simp only [compare_conf] at this
      by_cases hlt : c.confidence < p.confidence
      · simp [hlt] at this
      · exact not_lt.mp hlt
    · rw [List.mem_singleton.mp h]

/-- The loop removes nothing from a list in which no two entries overlap above the
threshold: the picks are the list in reverse order. -/
theorem nms_pick_of_pairwise (thr : α) (l : List (t_prediction α)) :
    l.Pairwise (fun a b => ¬ thr < get_iou a b ∧ ¬ thr < get_iou b a) →
    nms_pick thr l = l.reverse := by
  refine nms_pick_induction thr
    (P := fun l => l.Pairwise (fun a b => ¬ thr < get_iou a b ∧ ¬ thr < get_iou b a) →
      nms_pick thr l = l.reverse) ?_ ?_ l
  · intro _
    simp [nms_pick_nil]
  · intro l c ih hl
    rw [List.pairwise_append] at hl
    have hkeep : (l.filter fun q => !decide (get_iou c q > thr)) = l := by
      apply List.filter_eq_self.mpr
      intro q hq
      have := (hl.2.2 q hq c (List.mem_singleton_self c)).2
      simpa using this
    rw [nms_pick_concat, hkeep, List.reverse_append, List.reverse_singleton,
      List.singleton_append]
    rw [hkeep] at ih
    rw [ih hl.1]

/-- C24: the output of `nms_boxes` is grouped by class in ascending `class_index`
order, and within a class the kept predictions come in non-increasing confidence
order. -/
theorem nms_boxes_output_order (S : StdSort α) (L : List (t_prediction α)) (n : Int)
    (thr : α) :
    (nms_boxes S L [] n thr).Pairwise (fun a b =>
      a.class_index < b.class_index ∨
        (a.class_index = b.class_index ∧ b.confidence ≤ a.confidence)) := by
  rw [nms_boxes_eq, List.nil_append, List.pairwise_flatMap]
  constructor
  · intro i _
    have h1 := nms_pick_descending thr _
      (S.sorted (L.filter fun p => decide (p.class_index = i)))
    have h2 : ∀ p ∈ class_pick S L thr i, p.class_index = i :=
      fun p hp => (mem_class_pick hp).2
    rw [List.pairwise_iff_forall_sublist] at h1 ⊢
    intro a b hab
    have ha : a ∈ class_pick S L thr i := hab.subset (by simp)
    have hb : b ∈ class_pick S L thr i := hab.subset (by simp)
    exact Or.inr ⟨(h2 a ha).trans (h2 b hb).symm, h1 hab⟩
  · refine (pairwise_class_range n).imp ?_
    intro i j hij x hx y hy
    left
    rw [(mem_class_pick hx).2, (mem_class_pick hy).2]
    exact hij

/-- C25: the best detection of each class survives.  For a visited class `c` with at
least one input prediction, the output holds an input prediction of class `c` whose
confidence is the largest among the class-`c` input predictions, whatever the
threshold. -/
theorem nms_boxes_best_survives (S : StdSort α) (L : List (t_prediction α)) (n : Int)
    (thr : α) (c : Int) (h0 : 0 ≤ c) (hn : c < n) (hex : ∃ p ∈ L, p.class_index = c) :
    ∃ q ∈ nms_boxes S L [] n thr, q.class_index = c ∧ q ∈ L ∧
      ∀ p ∈ L, p.class_index = c → p.confidence ≤ q.confidence := by
  obtain ⟨p0, hp0, hc0⟩ := hex
  have hmem0 : p0 ∈ L.filter fun p => decide (p.class_index = c) :=
    List.mem_filter.mpr ⟨hp0, by simpa using hc0⟩
  have hsort := S.perm (L.filter fun p => decide (p.class_index = c))
  have hne : S.sort (L.filter fun p => decide (p.class_index = c)) ≠ [] :=
    List.ne_nil_of_mem (hsort.symm.subset hmem0)
  obtain ⟨q, hq, hbest⟩ := nms_pick_best thr _ hne (S.sorted _)
  have hqc : q ∈ class_pick S L thr c := hq
  have hqout : q ∈ nms_boxes S L [] n thr := by
    have hf : q ∈ (nms_boxes S L [] n thr).filter (fun p => decide (p.class_index = c)) := by
      rw [filter_nms_boxes, if_pos ⟨h0, hn⟩]
      exact hqc
    exact (List.mem_filter.mp hf).1
  refine ⟨q, hqout, (mem_class_pick hqc).2, (mem_class_pick hqc).1, ?_⟩
  intro p hp hpc
  apply hbest
  exact hsort.symm.subset (List.mem_filter.mpr ⟨hp, by simpa using hpc⟩)

/-- C26: `nms_boxes` is idempotent up to order.  Applied to its own output, with the
same class count and threshold, it removes nothing: the result is a permutation of
that output. -/
theorem nms_boxes_idempotent (S : StdSort α) (L : List (t_prediction α)) (n : Int)
    (thr : α) :
    (nms_boxes S (nms_boxes S L [] n thr) [] n thr).Perm (nms_boxes S L [] n thr) ∧
    (nms_boxes S (nms_boxes S L [] n thr) [] n thr).length =
      (nms_boxes S L [] n thr).length := by
  have hperm : (nms_boxes S (nms_boxes S L [] n thr) [] n thr).Perm
      (nms_boxes S L [] n thr) := by
    rw [List.perm_iff_count]
    intro x
    rw [count_nms_boxes S (nms_boxes S L [] n thr), count_nms_boxes S L]
    split
    · rename_i hr
      have hfilter := filter_nms_boxes S L n thr x.class_index
      rw [if_pos hr] at hfilter
      have hpw : (class_pick S L thr x.class_index).Pairwise
          (fun a b => ¬ thr < get_iou a b ∧ ¬ thr < get_iou b a) := by
        refine (nms_pick_pairwise thr _).imp ?_
        intro a b hab
        exact ⟨hab, by rwa [get_iou_comm]⟩
      have hsort := S.perm (class_pick S L thr x.class_index)
      have hpw2 : (S.sort (class_pick S L thr x.class_index)).Pairwise
          (fun a b => ¬ thr < get_iou a b ∧ ¬ thr < get_iou b a) :=
        (List.Perm.pairwise_iff (fun h => ⟨h.2, h.1⟩) hsort.symm).mp hpw
      have hpick : class_pick S (nms_boxes S L [] n thr) thr x.class_index =
          (S.sort (class_pick S L thr x.class_index)).reverse := by
        unfold class_pick at hfilter ⊢
        rw [hfilter]
        exact nms_pick_of_pairwise thr _ hpw2
      rw [hpick, List.count_reverse, hsort.count_eq]
    · rfl
  exact ⟨hperm, hperm.length_eq⟩

end NMSOrder

/-! ## Feature map decoder: offsets -/

section DecoderOffsets

variable {α : Type} [LinearOrderedField α]

theorem int_radix_lt {a A b B : Int} (ha : a < A) (hb0 : 0 ≤ b) (hb : b < B) :
    a * B + b < A * B := by
  have hB : 0 ≤ B := le_trans hb0 (le_of_lt hb)
  have h1 : (a + 1) * B ≤ A * B := mul_le_mul_of_nonneg_right (by omega) hB
  have h2 : (a + 1) * B = a * B + B := by ring
  omega

theorem int_radix_nonneg {a b B : Int} (ha : 0 ≤ a) (hb : 0 ≤ b) (hB : 0 ≤ B) :
    0 ≤ a * B + b := by
  have := mul_nonneg ha hB
  omega

theorem int_radix_inj {q q' c c' C : Int} (hc0 : 0 ≤ c) (hc : c < C) (hc0' : 0 ≤ c')
    (hc' : c' < C) (h : q * C + c = q' * C + c') : q = q' ∧ c = c' := by
  have hq : q = q' := by
    rcases lt_trichotomy q q' with hlt | heq | hgt
    · have h1 := int_radix_lt hlt hc0 hc
      omega
    · exact heq
    · have h1 := int_radix_lt hgt hc0' hc'
      omega
  subst hq
  exact ⟨rfl, by omega⟩

/-- Channel-minor layout: the `k`-th value of the cell `(h, w, anc)` is at
`(h * width + w) * channel + (anc * (num_classes + 5) + k)`. -/
theorem field_offset_channel_minor (channel height width num_classes h w anc k : Int)
    (hk : 0 ≤ k) :
    field_offset (bbox_offsets .channel_minor channel height width num_classes h w anc) k =
      (h * width + w) * channel + (anc * (num_classes + 5) + k) := by
  unfold field_offset bbox_offsets
  simp only
  split_ifs with h0 h1 h2 h3 h4
  · subst h0; ring
  · subst h1; ring
  · subst h2; ring
  · subst h3; ring
  · subst h4; ring
  · ring

/-- Channel-major layout: the `k`-th value of the cell `(h, w, anc)` is at
`(anc * (num_classes + 5) + k) * (height * width) + (h * width + w)`. -/
theorem field_offset_channel_major (channel height width num_classes h w anc k : Int)
    (hk : 0 ≤ k) :
    field_offset (bbox_offsets .channel_major channel height width num_classes h w anc) k =
      (anc * (num_classes + 5) + k) * (height * width) + (h * width + w) := by
  unfold field_offset bbox_offsets
  simp only
  split_ifs with h0 h1 h2 h3 h4
  · subst h0; ring
  · subst h1; ring
  · subst h2; ring
  · subst h3; ring
  · subst h4; ring
  · ring

/-- The channel index `anc * (num_classes + 5) + k` of the `k`-th value of anchor
`anc` lies in `[0, channel)`. -/
theorem channel_index_range {A n anc k : Int} (hn : 0 ≤ n) (ha0 : 0 ≤ anc) (ha : anc < A)
    (hk0 : 0 ≤ k) (hk : k < n + 5) :
    0 ≤ anc * (n + 5) + k ∧ anc * (n + 5) + k < A * (n + 5) :=
  ⟨int_radix_nonneg ha0 hk0 (by omega), int_radix_lt ha hk0 hk⟩

theorem field_offset_range (layout : FeatureMapLayout) {C H W n A h w anc k : Int}
    (hC : C = A * (n + 5)) (hn : 0 ≤ n) (hh0 : 0 ≤ h) (hh : h < H) (hw0 : 0 ≤ w) (hw : w < W)
    (ha0 : 0 ≤ anc) (ha : anc < A) (hk0 : 0 ≤ k) (hk : k < n + 5) :
    0 ≤ field_offset (bbox_offsets layout C H W n h w anc) k ∧
    field_offset (bbox_offsets layout C H W n h w anc) k < H * W * C := by
  obtain ⟨hc0, hc⟩ := channel_index_range hn ha0 ha hk0 hk
  rw [← hC] at hc
  have hp0 : 0 ≤ h * W + w := int_radix_nonneg hh0 hw0 (by omega)
  have hp : h * W + w < H * W := int_radix_lt hh hw0 hw
  cases layout with
  | channel_minor =>
    rw [field_offset_channel_minor _ _ _ _ _ _ _ _ hk0]
    exact ⟨int_radix_nonneg hp0 hc0 (by omega), int_radix_lt hp hc0 hc⟩
  | channel_major =>
    rw [field_offset_channel_major _ _ _ _ _ _ _ _ hk0]
    refine ⟨int_radix_nonneg hc0 hp0 (by omega), ?_⟩
    have := int_radix_lt hc hp0 hp
    have e : C * (H * W) = H * W * C := by ring
    omega

theorem field_offset_inj (layout : FeatureMapLayout) {C H W n A h w anc k h' w' anc' k' : Int}
    (hC : C = A * (n + 5)) (hn : 0 ≤ n)
    (hh0 : 0 ≤ h) (hh : h < H) (hw0 : 0 ≤ w) (hw : w < W)
    (ha0 : 0 ≤ anc) (ha : anc < A) (hk0 : 0 ≤ k) (hk : k < n + 5)
    (hh0' : 0 ≤ h') (hh' : h' < H) (hw0' : 0 ≤ w') (hw' : w' < W)
    (ha0' : 0 ≤ anc') (ha' : anc' < A) (hk0' : 0 ≤ k') (hk' : k' < n + 5)
    (e : field_offset (bbox_offsets layout C H W n h w anc) k =
      field_offset (bbox_offsets layout C H W n h' w' anc') k') :
    h = h' ∧ w = w' ∧ anc = anc' ∧ k = k' := by
  obtain ⟨hc0, hc⟩ := channel_index_range hn ha0 ha hk0 hk
  obtain ⟨hc0', hc'⟩ := channel_index_range hn ha0' ha' hk0' hk'
  rw [← hC] at hc hc'
  have hp0 : 0 ≤ h * W + w := int_radix_nonneg hh0 hw0 (by omega)
  have hp : h * W + w < H * W := int_radix_lt hh hw0 hw
  have hp0' : 0 ≤ h' * W + w' := int_radix_nonneg hh0' hw0' (by omega)
  have hp' : h' * W + w' < H * W := int_radix_lt hh' hw0' hw'
  have key : h * W + w = h' * W + w' ∧ anc * (n + 5) + k = anc' * (n + 5) + k' := by
    cases layout with
    | channel_minor =>
      rw [field_offset_channel_minor _ _ _ _ _ _ _ _ hk0,
        field_offset_channel_minor _ _ _ _ _ _ _ _ hk0'] at e
      exact int_radix_inj hc0 hc hc0' hc' e
    | channel_major =>
      rw [field_offset_channel_major _ _ _ _ _ _ _ _ hk0,
        field_offset_channel_major _ _ _ _ _ _ _ _ hk0'] at e
      exact (int_radix_inj hp0 hp hp0' hp' e).symm
  obtain ⟨e1, e2⟩ := int_radix_inj hw0 hw hw0' hw' key.1
  obtain ⟨e3, e4⟩ := int_radix_inj hk0 hk hk0' hk' key.2
  exact ⟨e1, e2, e3, e4⟩

theorem int_radix_split {j A B : Int} (hB : 0 < B) (hj0 : 0 ≤ j) (hj : j < A * B) :
    0 ≤ j / B ∧ j / B < A ∧ 0 ≤ j % B ∧ j % B < B ∧ j / B * B + j % B = j := by
  refine ⟨Int.ediv_nonneg hj0 (le_of_lt hB), Int.ediv_lt_of_lt_mul hB hj,
    Int.emod_nonneg j (ne_of_gt hB), Int.emod_lt_of_pos j hB, ?_⟩
  have := Int.ediv_add_emod j B
  rw [mul_comm] at this
  exact this

/-- Every index of the buffer is the offset of a value of some cell. -/
theorem field_offset_surj (layout : FeatureMapLayout) {C H W n A j : Int}
    (hC : C = A * (n + 5)) (hn : 0 ≤ n) (hA : 0 ≤ A) (hH : 0 ≤ H)
    (hj0 : 0 ≤ j) (hj : j < H * W * C) :
    ∃ h w anc k : Int, (0 ≤ h ∧ h < H) ∧ (0 ≤ w ∧ w < W) ∧ (0 ≤ anc ∧ anc < A) ∧
      (0 ≤ k ∧ k < n + 5) ∧ field_offset (bbox_offsets layout C H W n h w anc) k = j := by
  have hn5 : 0 < n + 5 := by omega
  have hC0 : 0 ≤ C := by rw [hC]; exact mul_nonneg hA (le_of_lt hn5)
  have hprod : 0 < H * W * C := lt_of_le_of_lt hj0 hj
  have hCpos : 0 < C := by
    rcases eq_or_lt_of_le hC0 with h0 | h0
    · rw [← h0, mul_zero] at hprod
      exact absurd hprod (lt_irrefl 0)
    · exact h0
  have hHW : 0 < H * W := (mul_pos_iff_of_pos_right hCpos).mp hprod
  have hHpos : 0 < H := by
    rcases eq_or_lt_of_le hH with h0 | h0
    · rw [← h0, zero_mul] at hHW
      exact absurd hHW (lt_irrefl 0)
    · exact h0
  have hWpos : 0 < W := (mul_pos_iff_of_pos_left hHpos).mp hHW
  have key : ∃ q c : Int, (0 ≤ q ∧ q < H * W) ∧ (0 ≤ c ∧ c < C) ∧
      ∀ h w anc k : Int, 0 ≤ k → h * W + w = q → anc * (n + 5) + k = c →
        field_offset (bbox_offsets layout C H W n h w anc) k = j := by
    cases layout with
    | channel_minor =>
      obtain ⟨q0, q1, c0, c1, e⟩ := int_radix_split hCpos hj0 hj
      refine ⟨j / C, j % C, ⟨q0, q1⟩, ⟨c0, c1⟩, ?_⟩
      intro h w anc k hk e1 e2
      rw [field_offset_channel_minor _ _ _ _ _ _ _ _ hk, e1, e2]
      exact e
    | channel_major =>
      have hj' : j < C * (H * W) := by
        have e : C * (H * W) = H * W * C := by ring
        omega
      obtain ⟨c0, c1, q0, q1, e⟩ := int_radix_split hHW hj0 hj'
      refine ⟨j % (H * W), j / (H * W), ⟨q0, q1⟩, ⟨c0, c1⟩, ?_⟩
      intro h w anc k hk e1 e2
      rw [field_offset_channel_major _ _ _ _ _ _ _ _ hk, e1, e2]
      exact e
  obtain ⟨q, c, ⟨q0, q1⟩, ⟨c0, c1⟩, hfo⟩ := key
  rw [hC] at c1
  obtain ⟨h0, h1, w0, w1, e1⟩ := int_radix_split hWpos q0 q1
  obtain ⟨a0, a1, k0, k1, e2⟩ := int_radix_split hn5 c0 c1
  exact ⟨q / W, q % W, c / (n + 5), c % (n + 5), ⟨h0, h1⟩, ⟨w0, w1⟩, ⟨a0, a1⟩, ⟨k0, k1⟩,
    hfo _ _ _ _ k0 e1 e2⟩

end DecoderOffsets

section DecoderOffsetSafety

variable {α : Type}

/-- C22: offset safety.  For a single image whose channel count is
`anchors * (num_classes + 5)`, with a non-negative class count and a buffer size within
the range of `int`, in both layouts the pointer `bytes` is the start of the buffer, the
values read for a cell are at `field_offset` `0, ..., 4` (x, y, w, h, objectness) and
`5 + i` (score of class `i`), every such offset lies in `[0, height * width * channel)`,
distinct `(h, w, anc, field)` tuples have distinct offsets, and (the height being
non-negative) every index of the buffer is the offset of such a tuple: each buffer
element is read as exactly one field. -/
theorem bbox_offsets_safe (feature_map : Tensor α) (layout : FeatureMapLayout)
    (num_classes : Int) (anchors : List (α × α))
    (hb : feature_map.batch = 1)
    (hc : feature_map.channel = (anchors.length : Int) * (num_classes + 5))
    (hn : 0 ≤ num_classes)
    (_hfit : feature_map.height * feature_map.width * feature_map.channel < 2 ^ 31) :
    (∀ b ∈ class_range feature_map.batch, batch_bytes feature_map layout b = feature_map.host) ∧
    (∀ (o : BBoxOffsets),
      field_offset o 0 = o.bbox_x_offset ∧ field_offset o 1 = o.bbox_y_offset ∧
      field_offset o 2 = o.bbox_w_offset ∧ field_offset o 3 = o.bbox_h_offset ∧
      field_offset o 4 = o.bbox_obj_offset ∧
      ∀ i : Int, 0 ≤ i →
        field_offset o (5 + i) = o.bbox_scores_offset + i * o.bbox_scores_step) ∧
    (∀ h w anc k : Int, 0 ≤ h → h < feature_map.height → 0 ≤ w → w < feature_map.width →
      0 ≤ anc → anc < (anchors.length : Int) → 0 ≤ k → k < num_classes + 5 →
      0 ≤ field_offset (bbox_offsets layout feature_map.channel feature_map.height
        feature_map.width num_classes h w anc) k ∧
      field_offset (bbox_offsets layout feature_map.channel feature_map.height
        feature_map.width num_classes h w anc) k <
        feature_map.height * feature_map.width * feature_map.channel) ∧
    (∀ h w anc k h' w' anc' k' : Int,
      0 ≤ h → h < feature_map.height → 0 ≤ w → w < feature_map.width →
      0 ≤ anc → anc < (anchors.length : Int) → 0 ≤ k → k < num_classes + 5 →
      0 ≤ h' → h' < feature_map.height → 0 ≤ w' → w' < feature_map.width →
      0 ≤ anc' → anc' < (anchors.length : Int) → 0 ≤ k' → k' < num_classes + 5 →
      field_offset (bbox_offsets layout feature_map.channel feature_map.height
        feature_map.width num_classes h w anc) k =
      field_offset (bbox_offsets layout feature_map.channel feature_map.height
        feature_map.width num_classes h' w' anc') k' →
      h = h' ∧ w = w' ∧ anc = anc' ∧ k = k') ∧
    (0 ≤ feature_map.height → ∀ j : Int, 0 ≤ j →
      j < feature_map.height * feature_map.width * feature_map.channel →
      ∃ h w anc k : Int, (0 ≤ h ∧ h < feature_map.height) ∧ (0 ≤ w ∧ w < feature_map.width) ∧
        (0 ≤ anc ∧ anc < (anchors.length : Int)) ∧ (0 ≤ k ∧ k < num_classes + 5) ∧
        field_offset (bbox_offsets layout feature_map.channel feature_map.height
          feature_map.width num_classes h w anc) k = j) := by
  refine ⟨?_, ?_, ?_, ?_, ?_⟩
  · intro b hbm
    rw [hb, class_range_one] at hbm
    rw [List.mem_singleton.mp hbm]
    funext i
    simp [batch_bytes]
  · intro o
    refine ⟨rfl, rfl, rfl, rfl, rfl, ?_⟩
    intro i hi
    unfold field_offset
    have h0 : ¬ (5 + i = 0) := by omega
    have h1 : ¬ (5 + i = 1) := by omega
    have h2 : ¬ (5 + i = 2) := by omega
    have h3 : ¬ (5 + i = 3) := by omega
    have h4 : ¬ (5 + i = 4) := by omega
    simp only [h0, h1, h2, h3, h4, if_false]
    ring
  · intro h w anc k hh0 hh hw0 hw ha0 ha hk0 hk
    exact field_offset_range layout hc hn hh0 hh hw0 hw ha0 ha hk0 hk
  · intro h w anc k h' w' anc' k' hh0 hh hw0 hw ha0 ha hk0 hk hh0' hh' hw0' hw' ha0' ha'
      hk0' hk' e
    exact field_offset_inj layout hc hn hh0 hh hw0 hw ha0 ha hk0 hk hh0' hh' hw0' hw'
      ha0' ha' hk0' hk' e
  · intro hH j hj0 hj
    exact field_offset_surj layout hc hn (Int.ofNat_nonneg _) hH hj0 hj

end DecoderOffsetSafety

/-! ## Feature map decoder: layout independence -/

section DecoderLayout

variable {α : Type} [LinearOrderedField α]

theorem mem_grid_cells {height width anchor_num : Int} {c : Int × Int × Int}
    (hc : c ∈ grid_cells height width anchor_num) :
    (0 ≤ c.1 ∧ c.1 < height) ∧ (0 ≤ c.2.1 ∧ c.2.1 < width) ∧
      (0 ≤ c.2.2 ∧ c.2.2 < anchor_num) := by
  simp only [grid_cells, List.mem_flatMap, List.mem_map, mem_class_range] at hc
  obtain ⟨h, hh, w, hw, anc, hanc, rfl⟩ := hc
  exact ⟨hh, hw, hanc⟩

/-- The prediction of a cell depends on the buffer only through the values read at
the offsets of the cell. -/
theorem yolo_cell_congr (exp : α → α) (bytes1 bytes2 : Int → α) (l1 l2 : FeatureMapLayout)
    (channel height width stride num_classes : Int) (anchors : List (α × α))
    (conf_threshold : α) (h w anc : Int) (hn : 0 ≤ num_classes)
    (hread : ∀ k : Int, 0 ≤ k → k < num_classes + 5 →
      bytes1 (field_offset (bbox_offsets l1 channel height width num_classes h w anc) k) =
      bytes2 (field_offset (bbox_offsets l2 channel height width num_classes h w anc) k)) :
    yolo_cell exp bytes1 l1 channel height width stride num_classes anchors conf_threshold
      h w anc =
    yolo_cell exp bytes2 l2 channel height width stride num_classes anchors conf_threshold
      h w anc := by
  have hx : bytes1 (bbox_offsets l1 channel height width num_classes h w anc).bbox_x_offset =
      bytes2 (bbox_offsets l2 channel height width num_classes h w anc).bbox_x_offset :=
    hread 0 (by omega) (by omega)
  have hy : bytes1 (bbox_offsets l1 channel height width num_classes h w anc).bbox_y_offset =
      bytes2 (bbox_offsets l2 channel height width num_classes h w anc).bbox_y_offset :=
    hread 1 (by omega) (by omega)
  have hw : bytes1 (bbox_offsets l1 channel height width num_classes h w anc).bbox_w_offset =
      bytes2 (bbox_offsets l2 channel height width num_classes h w anc).bbox_w_offset :=
    hread 2 (by omega) (by omega)
  have hh : bytes1 (bbox_offsets l1 channel height width num_classes h w anc).bbox_h_offset =
      bytes2 (bbox_offsets l2 channel height width num_classes h w anc).bbox_h_offset :=
    hread 3 (by omega) (by omega)
  have hobj : bytes1 (bbox_offsets l1 channel height width num_classes h w anc).bbox_obj_offset =
      bytes2 (bbox_offsets l2 channel height width num_classes h w anc).bbox_obj_offset :=
    hread 4 (by omega) (by omega)
  have hscore : ∀ i ∈ class_range num_classes,
      bytes1 ((bbox_offsets l1 channel height width num_classes h w anc).bbox_scores_offset +
        i * (bbox_offsets l1 channel height width num_classes h w anc).bbox_scores_step) =
      bytes2 ((bbox_offsets l2 channel height width num_classes h w anc).bbox_scores_offset +
        i * (bbox_offsets l2 channel height width num_classes h w anc).bbox_scores_step) := by
    intro i hi
    obtain ⟨hi0, hin⟩ := mem_class_range.mp hi
    have e := hread (5 + i) (by omega) (by omega)
    have hf : ∀ o : BBoxOffsets,
        field_offset o (5 + i) = o.bbox_scores_offset + i * o.bbox_scores_step := by
      intro o
      unfold field_offset
      have h0 : ¬ (5 + i = 0) := by omega
      have h1 : ¬ (5 + i = 1) := by omega
      have h2 : ¬ (5 + i = 2) := by omega
      have h3 : ¬ (5 + i = 3) := by omega
      have h4 : ¬ (5 + i = 4) := by omega
      simp only [h0, h1, h2, h3, h4, if_false]
      ring
    rw [hf, hf] at e
    exact e
  have hconf : ∀ (obj : α), ∀ i ∈ class_range num_classes,
      class_conf exp bytes1 (bbox_offsets l1 channel height width num_classes h w anc)
        anchors.length num_classes obj i =
      class_conf exp bytes2 (bbox_offsets l2 channel height width num_classes h w anc)
        anchors.length num_classes obj i := by
    intro obj i hi
    unfold class_conf
    have hlist : ((class_range num_classes).map fun k =>
        bytes1 ((bbox_offsets l1 channel height width num_classes h w anc).bbox_scores_offset +
          k * (bbox_offsets l1 channel height width num_classes h w anc).bbox_scores_step)) =
        ((class_range num_classes).map fun k =>
        bytes2 ((bbox_offsets l2 channel height width num_classes h w anc).bbox_scores_offset +
          k * (bbox_offsets l2 channel height width num_classes h w anc).bbox_scores_step)) :=
      List.map_congr_left hscore
    simp only [hlist, hscore i hi]
  have hloop : ∀ (obj : α),
      max_conf_loop (class_conf exp bytes1
        (bbox_offsets l1 channel height width num_classes h w anc) anchors.length num_classes
        obj) num_classes =
      max_conf_loop (class_conf exp bytes2
        (bbox_offsets l2 channel height width num_classes h w anc) anchors.length num_classes
        obj) num_classes := by
    intro obj
    unfold max_conf_loop
    apply List.foldl_ext
    intro s i hi
    rw [hconf obj i hi]
  simp only [yolo_cell, hx, hy, hw, hh, hobj, hloop]

/-- C21: layout independence of the decoder.  Let `v h w c` be a logical tensor of
height `H`, width `W` and `C = anchors * (num_classes + 5)` channels (with a
non-negative class count), stored channel-minor in `host_minor` (element at
`(h * W + w) * C + c`, tag `TENSORFLOW`) and channel-major in `host_major` (element at
`c * H * W + h * W + w`, tag `CAFFE`).  Then `yolo_postprocess` returns the same result
on both, all other arguments being equal. -/
theorem yolo_postprocess_layout_independent (mnn_assert : Bool → Bool) (exp : α → α)
    (v : Int → Int → Int → α) (host_minor host_major : Int → α) (C H W : Int)
    (input_width input_height num_classes : Int) (anchors : List (α × α))
    (prediction_list : List (t_prediction α)) (conf_threshold : α)
    (hC : C = (anchors.length : Int) * (num_classes + 5)) (hn : 0 ≤ num_classes)
    (hminor : ∀ h w c : Int, 0 ≤ h → h < H → 0 ≤ w → w < W → 0 ≤ c → c < C →
      host_minor ((h * W + w) * C + c) = v h w c)
    (hmajor : ∀ h w c : Int, 0 ≤ h → h < H → 0 ≤ w → w < W → 0 ≤ c → c < C →
      host_major (c * H * W + h * W + w) = v h w c) :
    yolo_postprocess mnn_assert exp ⟨host_minor, .TENSORFLOW, 1, C, H, W⟩ input_width
      input_height num_classes anchors prediction_list conf_threshold =
    yolo_postprocess mnn_assert exp ⟨host_major, .CAFFE, 1, C, H, W⟩ input_width
      input_height num_classes anchors prediction_list conf_threshold := by
  have hloops :
      decode_loops exp ⟨host_minor, .TENSORFLOW, 1, C, H, W⟩ .channel_minor
        (Int.tdiv input_width W) num_classes anchors conf_threshold =
      decode_loops exp ⟨host_major, .CAFFE, 1, C, H, W⟩ .channel_major
        (Int.tdiv input_width W) num_classes anchors conf_threshold := by
    rw [decode_loops_eq_grid exp ⟨host_minor, .TENSORFLOW, 1, C, H, W⟩ .channel_minor
        (Int.tdiv input_width W) num_classes anchors conf_threshold rfl,
      decode_loops_eq_grid exp ⟨host_major, .CAFFE, 1, C, H, W⟩ .channel_major
        (Int.tdiv input_width W) num_classes anchors conf_threshold rfl]
    apply List.filterMap_congr
    intro c hc
    obtain ⟨⟨hh0, hh⟩, ⟨hw0, hw⟩, ⟨ha0, ha⟩⟩ := mem_grid_cells hc
    apply yolo_cell_congr exp host_minor host_major .channel_minor .channel_major C H W
      (Int.tdiv input_width W) num_classes anchors conf_threshold c.1 c.2.1 c.2.2 hn
    intro k hk0 hk
    obtain ⟨hc0, hcC⟩ := channel_index_range hn ha0 ha hk0 hk
    rw [← hC] at hcC
    rw [field_offset_channel_minor _ _ _ _ _ _ _ _ hk0,
      field_offset_channel_major _ _ _ _ _ _ _ _ hk0,
      hminor c.1 c.2.1 _ hh0 hh hw0 hw hc0 hcC]
    have e : (c.2.2 * (num_classes + 5) + k) * (H * W) + (c.1 * W + c.2.1) =
        (c.2.2 * (num_classes + 5) + k) * H * W + c.1 * W + c.2.1 := by ring
    rw [e, hmajor c.1 c.2.1 _ hh0 hh hw0 hw hc0 hcC]
  simp only [yolo_postprocess, supported_layout, hloops]

end DecoderLayout

/-! ## Anchor file parsing: termination -/

section ParseTermination

variable {β : Type}

/-- A character sequence has no comma, or splits at its first comma. -/
theorem comma_split (l : List Char) :
    ',' ∉ l ∨ ∃ tok rest, l = tok ++ ',' :: rest ∧ ',' ∉ tok := by
  induction l with
  | nil => exact Or.inl (List.not_mem_nil _)
  | cons c cs ih =>
    by_cases hc : c = ','
    · exact Or.inr ⟨[], cs, by rw [hc]; rfl, List.not_mem_nil _⟩
    · rcases ih with h | ⟨tok, rest, rfl, htok⟩
      · left
        intro hmem
        rcases List.mem_cons.mp hmem with h1 | h1
        · exact hc h1.symm
        · exact h h1
      · right
        refine ⟨c :: tok, rest, rfl, ?_⟩
        intro hmem
        rcases List.mem_cons.mp hmem with h1 | h1
        · exact hc h1.symm
        · exact htok h1

theorem count_comma_split {tok rest : List Char} (h : ',' ∉ tok) :
    List.count ',' (tok ++ ',' :: rest) = List.count ',' rest + 1 := by
  rw [List.count_append, List.count_eq_zero_of_not_mem h, List.count_cons_self, Nat.zero_add]

/-- One iteration that passes two commas: it appends the pair of the two tokens and
moves the cursor behind the second comma. -/
theorem parse_loop_two_commas (atof : List Char → β) (pre tok1 tok2 rest : List Char)
    (f next : Nat) (anchors : List (β × β)) (hnext : next ≠ npos) (h1 : ',' ∉ tok1)
    (h2 : ',' ∉ tok2) (hlen : (pre ++ (tok1 ++ ',' :: (tok2 ++ ',' :: rest))).length < npos) :
    (pre ++ (tok1 ++ ',' :: (tok2 ++ ',' :: rest)) =
      (pre ++ tok1 ++ [','] ++ tok2 ++ [',']) ++ rest) ∧
    (pre ++ tok1 ++ [',']).length + tok2.length ≠ npos ∧
    parse_anchors_loop atof (pre ++ (tok1 ++ ',' :: (tok2 ++ ',' :: rest))) (f + 1)
        pre.length next anchors =
      parse_anchors_loop atof ((pre ++ tok1 ++ [','] ++ tok2 ++ [',']) ++ rest) f
        (pre ++ tok1 ++ [','] ++ tok2 ++ [',']).length
        ((pre ++ tok1 ++ [',']).length + tok2.length)
        (anchors ++ [(atof tok1, atof tok2)]) := by
  obtain ⟨e1, e2, e3, _⟩ := token_step pre tok1 (tok2 ++ ',' :: rest) h1 hlen
  have eline : pre ++ (tok1 ++ ',' :: (tok2 ++ ',' :: rest)) =
      (pre ++ tok1 ++ [',']) ++ (tok2 ++ ',' :: rest) := by simp
  have hlen2 : ((pre ++ tok1 ++ [',']) ++ (tok2 ++ ',' :: rest)).length < npos := by
    rw [← eline]; exact hlen
  obtain ⟨e4, e5, e6, e7⟩ := token_step (pre ++ tok1 ++ [',']) tok2 rest h2 hlen2
  have eline2 : (pre ++ tok1 ++ [',']) ++ (tok2 ++ ',' :: rest) =
      (pre ++ tok1 ++ [','] ++ tok2 ++ [',']) ++ rest := by simp
  refine ⟨eline.trans eline2, e7, ?_⟩
  rw [parse_anchors_loop, if_neg hnext]
  simp only [e1, e2, e3]
  rw [eline, e4, e5]
  simp only [e6]
  rw [eline2]

/-- The iteration that passes the last comma: it appends the pair of the last two
tokens and the loop ends. -/
theorem parse_loop_last_comma (atof : List Char → β) (pre tok1 tok2 : List Char)
    (f next : Nat) (anchors : List (β × β)) (hnext : next ≠ npos) (h1 : ',' ∉ tok1)
    (h2 : ',' ∉ tok2) (hlen : (pre ++ (tok1 ++ ',' :: tok2)).length < npos) :
    parse_anchors_loop atof (pre ++ (tok1 ++ ',' :: tok2)) (f + 1) pre.length next anchors =
      .ok (anchors ++ [(atof tok1, atof tok2)]) := by
  obtain ⟨e1, e2, e3, _⟩ := token_step pre tok1 tok2 h1 hlen
  have eline : pre ++ (tok1 ++ ',' :: tok2) = (pre ++ tok1 ++ [',']) ++ tok2 := by simp
  have hlen2 : ((pre ++ tok1 ++ [',']) ++ tok2).length < npos := by
    rw [← eline]; exact hlen
  obtain ⟨e4, e5⟩ := last_token_step (pre ++ tok1 ++ [',']) tok2 h2 hlen2
  rw [parse_anchors_loop, if_neg hnext]
  simp only [e1, e2, e3]
  rw [eline, e4, e5]
  cases f <;> simp [parse_anchors_loop]

/-- From a cursor with an odd number `2 m + 1` of commas ahead, the loop ends after
`m + 1` iterations, without wrapping. -/
theorem parse_loop_odd (atof : List Char → β) :
    ∀ (m : Nat) (rest pre : List Char) (fuel next : Nat) (anchors : List (β × β)),
      List.count ',' rest = 2 * m + 1 → next ≠ npos → (pre ++ rest).length < npos →
      m + 1 ≤ fuel →
      ∃ new, parse_anchors_loop atof (pre ++ rest) fuel pre.length next anchors =
          .ok (anchors ++ new) ∧ new.length = m + 1 := by
  intro m
  induction m with
  | zero =>
    intro rest pre fuel next anchors hcount hnext hlen hfuel
    obtain ⟨f, rfl⟩ : ∃ f, fuel = f + 1 := ⟨fuel - 1, by omega⟩
    rcases comma_split rest with hno | ⟨tok1, rest1, rfl, h1⟩
    · rw [List.count_eq_zero_of_not_mem hno] at hcount
      omega
    · rw [count_comma_split h1] at hcount
      have h2 : ',' ∉ rest1 := List.count_eq_zero.mp (by omega)
      exact ⟨[(atof tok1, atof rest1)],
        parse_loop_last_comma atof pre tok1 rest1 f next anchors hnext h1 h2 hlen, rfl⟩
  | succ k ih =>
    intro rest pre fuel next anchors hcount hnext hlen hfuel
    obtain ⟨f, rfl⟩ : ∃ f, fuel = f + 1 := ⟨fuel - 1, by omega⟩
    rcases comma_split rest with hno | ⟨tok1, rest1, rfl, h1⟩
    · rw [List.count_eq_zero_of_not_mem hno] at hcount
      omega
    · rw [count_comma_split h1] at hcount
      rcases comma_split rest1 with hno1 | ⟨tok2, rest2, rfl, h2⟩
      · rw [List.count_eq_zero_of_not_mem hno1] at hcount
        omega
      · rw [count_comma_split h2] at hcount
        obtain ⟨eline, hnext2, hstep⟩ :=
          parse_loop_two_commas atof pre tok1 tok2 rest2 f next anchors hnext h1 h2 hlen
        have hlen2 : ((pre ++ tok1 ++ [','] ++ tok2 ++ [',']) ++ rest2).length < npos := by
          rw [← eline]; exact hlen
        obtain ⟨new, hrec, hnew⟩ := ih rest2 (pre ++ tok1 ++ [','] ++ tok2 ++ [',']) f
          ((pre ++ tok1 ++ [',']).length + tok2.length) (anchors ++ [(atof tok1, atof tok2)])
          (by omega) hnext2 hlen2 (by omega)
        refine ⟨(atof tok1, atof tok2) :: new, ?_, by simp [hnew]⟩
        rw [hstep, hrec]
        simp

theorem size_succ_npos : size_succ npos = 0 := by
  decide

/-- The iteration that starts with no comma ahead: the first `find` returns `npos`, the
cursor wraps to `0`, and the second token is read from the start of the line. -/
theorem parse_loop_wrap (atof : List Char → β) (pre tok : List Char) (f next : Nat)
    (anchors : List (β × β)) (hnext : next ≠ npos) (h : ',' ∉ tok)
    (hlen : (pre ++ tok).length < npos) :
    (',' ∉ pre ++ tok →
      parse_anchors_loop atof (pre ++ tok) (f + 1) pre.length next anchors =
        .ok (anchors ++ [(atof tok, atof (pre ++ tok))])) ∧
    (∀ t1 r1 : List Char, pre ++ tok = t1 ++ ',' :: r1 → ',' ∉ t1 →
      t1.length ≠ npos ∧
      parse_anchors_loop atof (pre ++ tok) (f + 1) pre.length next anchors =
        parse_anchors_loop atof ((t1 ++ [',']) ++ r1) f (t1 ++ [',']).length t1.length
          (anchors ++ [(atof tok, atof t1)])) := by
  obtain ⟨e1, e2⟩ := last_token_step pre tok h hlen
  constructor
  · intro hno
    have h0 := last_token_step [] (pre ++ tok) hno (by simpa using hlen)
    simp only [List.nil_append, List.length_nil] at h0
    obtain ⟨e3, e4⟩ := h0
    rw [parse_anchors_loop, if_neg hnext]
    simp only [e1, e2, size_succ_npos, e3, e4]
    cases f <;> simp [parse_anchors_loop]
  · intro t1 r1 hsplit ht1
    have hlen1 : ([] ++ (t1 ++ ',' :: r1)).length < npos := by
      rw [List.nil_append, ← hsplit]; exact hlen
    have h0 := token_step [] t1 r1 ht1 hlen1
    simp only [List.nil_append, List.length_nil, Nat.zero_add] at h0
    obtain ⟨e3, e4, e5, e6⟩ := h0
    refine ⟨e6, ?_⟩
    have eline : t1 ++ ',' :: r1 = (t1 ++ [',']) ++ r1 := by simp
    rw [parse_anchors_loop, if_neg hnext]
    simp only [e1, e2, size_succ_npos]
    rw [hsplit]
    simp only [e3, e4, e5]
    rw [eline]

/-- From a cursor with an even number `2 m` of commas ahead, in a line with an even
number `2 K` of commas, the loop ends after `m + 1 + K` iterations: `m` iterations reach
the last token, one wraps, and `K` more end the loop. -/
theorem parse_loop_even (atof : List Char → β) :
    ∀ (m K : Nat) (rest pre : List Char) (fuel next : Nat) (anchors : List (β × β)),
      List.count ',' rest = 2 * m → List.count ',' (pre ++ rest) = 2 * K →
      next ≠ npos → (pre ++ rest).length < npos → m + 1 + K ≤ fuel →
      ∃ new, parse_anchors_loop atof (pre ++ rest) fuel pre.length next anchors =
          .ok (anchors ++ new) ∧ new.length = m + 1 + K := by
  intro m
  induction m with
  | zero =>
    intro K rest pre fuel next anchors hcount htotal hnext hlen hfuel
    obtain ⟨f, rfl⟩ : ∃ f, fuel = f + 1 := ⟨fuel - 1, by omega⟩
    have hrest : ',' ∉ rest := List.count_eq_zero.mp (by omega)
    obtain ⟨hA, hB⟩ := parse_loop_wrap atof pre rest f next anchors hnext hrest hlen
    rcases comma_split (pre ++ rest) with hno | ⟨t1, r1, hsplit, ht1⟩
    · have hK : K = 0 := by
        rw [List.count_eq_zero_of_not_mem hno] at htotal
        omega
      exact ⟨[(atof rest, atof (pre ++ rest))], hA hno, by simp [hK]⟩
    · obtain ⟨_, hstep⟩ := hB t1 r1 hsplit ht1
      rw [hsplit, count_comma_split ht1] at htotal
      have hlen1 : ((t1 ++ [',']) ++ r1).length < npos := by
        have e : (t1 ++ [',']) ++ r1 = pre ++ rest := by rw [hsplit]; simp
        rw [e]; exact hlen
      have hnext1 : t1.length ≠ npos := by
        have : t1.length < (pre ++ rest).length := by
          rw [hsplit]; simp
        omega
      obtain ⟨new, hrec, hnew⟩ := parse_loop_odd atof (K - 1) r1 (t1 ++ [',']) f t1.length
        (anchors ++ [(atof rest, atof t1)]) (by omega) hnext1 hlen1 (by omega)
      refine ⟨(atof rest, atof t1) :: new, ?_, by simp [hnew]; omega⟩
      rw [hstep, hrec]
      simp
  | succ k ih =>
    intro K rest pre fuel next anchors hcount htotal hnext hlen hfuel
    obtain ⟨f, rfl⟩ : ∃ f, fuel = f + 1 := ⟨fuel - 1, by omega⟩
    rcases comma_split rest with hno | ⟨tok1, rest1, rfl, h1⟩
    · rw [List.count_eq_zero_of_not_mem hno] at hcount
      omega
    · rw [count_comma_split h1] at hcount
      rcases comma_split rest1 with hno1 | ⟨tok2, rest2, rfl, h2⟩
      · rw [List.count_eq_zero_of_not_mem hno1] at hcount
        omega
      · rw [count_comma_split h2] at hcount
        obtain ⟨eline, hnext2, hstep⟩ :=
          parse_loop_two_commas atof pre tok1 tok2 rest2 f next anchors hnext h1 h2 hlen
        have hlen2 : ((pre ++ tok1 ++ [','] ++ tok2 ++ [',']) ++ rest2).length < npos := by
          rw [← eline]; exact hlen
        have htotal2 : List.count ',' ((pre ++ tok1 ++ [','] ++ tok2 ++ [',']) ++ rest2)
            = 2 * K := by
          rw [← eline]; exact htotal
        obtain ⟨new, hrec, hnew⟩ := ih K rest2 (pre ++ tok1 ++ [','] ++ tok2 ++ [',']) f
          ((pre ++ tok1 ++ [',']).length + tok2.length) (anchors ++ [(atof tok1, atof tok2)])
          (by omega) htotal2 hnext2 hlen2 (by omega)
        refine ⟨(atof tok1, atof tok2) :: new, ?_, by simp [hnew]; omega⟩
        rw [hstep, hrec]
        simp

end ParseTermination

/-- C23: `parse_anchors` terminates on every line (shorter than `npos`, as every
`std::string`): the loop ends within its `line.length + 1` iterations and no `substr`
starts past the end of the line, so the run returns; it appends at least one pair and at
most one pair more than the line has commas.  With an odd number `c` of commas it
appends `(c + 1) / 2` pairs; with an even number (where the cursor wraps from
`npos + 1` to `0`) it appends `c + 1` pairs. -/
theorem parse_anchors_terminates {β : Type} (atof : List Char → β) (line : List Char)
    (anchors : List (β × β)) (hlen : line.length < npos) :
    ∃ new, parse_anchors atof line anchors = .ok (anchors ++ new) ∧
      1 ≤ new.length ∧ new.length ≤ List.count ',' line + 1 ∧
      new.length =
        if List.count ',' line % 2 = 1 then (List.count ',' line + 1) / 2
        else List.count ',' line + 1 := by
  have hcl : List.count ',' line ≤ line.length := List.count_le_length ',' line
  unfold parse_anchors
  by_cases hodd : List.count ',' line % 2 = 1
  · obtain ⟨new, hrun, hnew⟩ := parse_loop_odd atof (List.count ',' line / 2) line []
      (line.length + 1) 0 anchors (by omega) (by decide) (by simpa using hlen) (by omega)
    refine ⟨new, by simpa using hrun, by omega, by omega, ?_⟩
    rw [if_pos hodd]
    omega
  · obtain ⟨new, hrun, hnew⟩ := parse_loop_even atof (List.count ',' line / 2)
      (List.count ',' line / 2) line [] (line.length + 1) 0 anchors (by omega)
      (by simp only [List.nil_append]; omega) (by decide) (by simpa using hlen) (by omega)
    refine ⟨new, by simpa using hrun, by omega, by omega, ?_⟩
    rw [if_neg hodd]
    omega

/-- Witness for C23: the line `1,2,` ends in a comma; the cursor wraps and three pairs
are appended. -/
theorem parse_anchors_terminates_witness :
    "1,2,".toList.length < npos ∧
    parse_anchors id "1,2,".toList [] =
      .ok [("1".toList, "2".toList), ("".toList, "1".toList), ("2".toList, "".toList)] ∧
    ∃ new, parse_anchors id "1,2,".toList [] = .ok ([] ++ new) ∧
      1 ≤ new.length ∧ new.length ≤ List.count ',' "1,2,".toList + 1 ∧
      new.length =
        if List.count ',' "1,2,".toList % 2 = 1 then (List.count ',' "1,2,".toList + 1) / 2
        else List.count ',' "1,2,".toList + 1 :=
  ⟨by decide, rfl, parse_anchors_terminates id "1,2,".toList [] (by decide)⟩

/-- Witness for C25: class 0 of the chain; `chain_hi` survives. -/
theorem nms_boxes_best_survives_witness :
    (0 : Int) ≤ 0 ∧ (0 : Int) < 1 ∧
    (∃ p ∈ [chain_hi, chain_mid, chain_lo], p.class_index = 0) ∧
    ∃ q ∈ nms_boxes insertion_sort [chain_hi, chain_mid, chain_lo] [] 1 (2/5),
      q.class_index = 0 ∧ q ∈ [chain_hi, chain_mid, chain_lo] ∧
      ∀ p ∈ [chain_hi, chain_mid, chain_lo], p.class_index = 0 →
        p.confidence ≤ q.confidence :=
  ⟨by decide, by decide, ⟨chain_hi, List.mem_cons_self _ _, rfl⟩,
    nms_boxes_best_survives insertion_sort [chain_hi, chain_mid, chain_lo] 1 (2/5) 0
      (by decide) (by decide) ⟨chain_hi, List.mem_cons_self _ _, rfl⟩⟩

/-- Witness for C22: a 13x13 channel-major feature map with 3 anchors and 3 classes
(24 channels). -/
theorem bbox_offsets_safe_witness :
    (⟨fun _ => 0, .CAFFE, 1, 24, 13, 13⟩ : Tensor ℚ).batch = 1 ∧
    (⟨fun _ => 0, .CAFFE, 1, 24, 13, 13⟩ : Tensor ℚ).channel =
      (([(116, 90), (156, 198), (373, 326)] : List (ℚ × ℚ)).length : Int) * (3 + 5) ∧
    (0 : Int) ≤ 3 ∧
    (⟨fun _ => 0, .CAFFE, 1, 24, 13, 13⟩ : Tensor ℚ).height *
      (⟨fun _ => 0, .CAFFE, 1, 24, 13, 13⟩ : Tensor ℚ).width *
      (⟨fun _ => 0, .CAFFE, 1, 24, 13, 13⟩ : Tensor ℚ).channel < 2 ^ 31 ∧
    (∀ h w anc k : Int, 0 ≤ h → h < 13 → 0 ≤ w → w < 13 →
      0 ≤ anc → anc < 3 → 0 ≤ k → k < 3 + 5 →
      0 ≤ field_offset (bbox_offsets .channel_major 24 13 13 3 h w anc) k ∧
      field_offset (bbox_offsets .channel_major 24 13 13 3 h w anc) k < 13 * 13 * 24) ∧
    (∀ h w anc k h' w' anc' k' : Int,
      0 ≤ h → h < 13 → 0 ≤ w → w < 13 → 0 ≤ anc → anc < 3 → 0 ≤ k → k < 3 + 5 →
      0 ≤ h' → h' < 13 → 0 ≤ w' → w' < 13 → 0 ≤ anc' → anc' < 3 → 0 ≤ k' → k' < 3 + 5 →
      field_offset (bbox_offsets .channel_major 24 13 13 3 h w anc) k =
      field_offset (bbox_offsets .channel_major 24 13 13 3 h' w' anc') k' →
      h = h' ∧ w = w' ∧ anc = anc' ∧ k = k') ∧
    (∀ j : Int, 0 ≤ j → j < 13 * 13 * 24 →
      ∃ h w anc k : Int, (0 ≤ h ∧ h < 13) ∧ (0 ≤ w ∧ w < 13) ∧ (0 ≤ anc ∧ anc < 3) ∧
        (0 ≤ k ∧ k < 3 + 5) ∧
        field_offset (bbox_offsets .channel_major 24 13 13 3 h w anc) k = j) :=
  ⟨rfl, by decide, by decide, by decide,
    (bbox_offsets_safe (⟨fun _ => 0, .CAFFE, 1, 24, 13, 13⟩ : Tensor ℚ) .channel_major 3
      [(116, 90), (156, 198), (373, 326)] rfl (by decide) (by decide) (by decide)).2.2.1,
    (bbox_offsets_safe (⟨fun _ => 0, .CAFFE, 1, 24, 13, 13⟩ : Tensor ℚ) .channel_major 3
      [(116, 90), (156, 198), (373, 326)] rfl (by decide) (by decide) (by decide)).2.2.2.1,
    (bbox_offsets_safe (⟨fun _ => 0, .CAFFE, 1, 24, 13, 13⟩ : Tensor ℚ) .channel_major 3
      [(116, 90), (156, 198), (373, 326)] rfl (by decide) (by decide) (by decide)).2.2.2.2
      (by decide)⟩

/-- Witness for C21: a logical tensor `v h w c = w + 2 c` of height 1, width 2 and 6
channels (one anchor, one class), stored channel-minor and channel-major. -/
theorem yolo_postprocess_layout_independent_witness :
    (6 : Int) = ((one_anchor.length : Int)) * (1 + 5) ∧ (0 : Int) ≤ 1 ∧
    (∀ h w c : Int, 0 ≤ h → h < 1 → 0 ≤ w → w < 2 → 0 ≤ c → c < 6 →
      (fun k : Int => (((k / 6 + 2 * (k % 6) : Int)) : ℝ)) ((h * 2 + w) * 6 + c) =
        (fun _ w c : Int => (((w + 2 * c : Int)) : ℝ)) h w c) ∧
    (∀ h w c : Int, 0 ≤ h → h < 1 → 0 ≤ w → w < 2 → 0 ≤ c → c < 6 →
      (fun k : Int => ((k : Int) : ℝ)) (c * 1 * 2 + h * 2 + w) =
        (fun _ w c : Int => (((w + 2 * c : Int)) : ℝ)) h w c) ∧
    yolo_postprocess id Real.exp
      ⟨fun k : Int => (((k / 6 + 2 * (k % 6) : Int)) : ℝ), .TENSORFLOW, 1, 6, 1, 2⟩
      416 416 1 one_anchor [] (1 / 10) =
    yolo_postprocess id Real.exp
      ⟨fun k : Int => ((k : Int) : ℝ), .CAFFE, 1, 6, 1, 2⟩
      416 416 1 one_anchor [] (1 / 10) := by
  have hminor : ∀ h w c : Int, 0 ≤ h → h < 1 → 0 ≤ w → w < 2 → 0 ≤ c → c < 6 →
      (fun k : Int => (((k / 6 + 2 * (k % 6) : Int)) : ℝ)) ((h * 2 + w) * 6 + c) =
        (fun _ w c : Int => (((w + 2 * c : Int)) : ℝ)) h w c := by
    intro h w c h0 h1 w0 w1 c0 c1
    have e : ((h * 2 + w) * 6 + c) / 6 + 2 * (((h * 2 + w) * 6 + c) % 6) = w + 2 * c := by
      omega
    simp only [e]
  have hmajor : ∀ h w c : Int, 0 ≤ h → h < 1 → 0 ≤ w → w < 2 → 0 ≤ c → c < 6 →
      (fun k : Int => ((k : Int) : ℝ)) (c * 1 * 2 + h * 2 + w) =
        (fun _ w c : Int => (((w + 2 * c : Int)) : ℝ)) h w c := by
    intro h w c h0 h1 w0 w1 c0 c1
    have e : c * 1 * 2 + h * 2 + w = w + 2 * c := by omega
    simp only [e]
  exact ⟨by decide, by decide, hminor, hmajor,
    yolo_postprocess_layout_independent id Real.exp
      (fun _ w c : Int => (((w + 2 * c : Int)) : ℝ))
      (fun k : Int => (((k / 6 + 2 * (k % 6) : Int)) : ℝ))
      (fun k : Int => ((k : Int) : ℝ)) 6 1 2 416 416 1 one_anchor [] (1 / 10)
      (by decide) (by decide) hminor hmajor⟩

end YoloDetection
